import Mathlib

/-!
# Generic singly-linked list (`ll_source.c`): shallow embedding and verification

The C module keeps a chain of heap nodes (`node_t`: an opaque value and a `next`
pointer) behind a list header (`ll_t`: `head`, `tail`, two callbacks and a mutex).

Modelling choices, all taken from the C text:

* a node pointer is `Option Nat` (`none` is `NULL`); the node heap is a map from
  addresses to live nodes, a freed or never allocated address maps to `none`;
* the header behind a handle `ll_t *list` is `Option (ll_t α)` (`none` is a `NULL` handle);
* a function pointer is an `Option` of a pure function (`none` is `NULL`);
* `pthread_mutex_t` is a held/free flag; locking a held mutex from the same thread
  never returns and is reported as `Fault.deadlock`;
* the result of `malloc` is an argument of the operation that calls it;
* `pthread_mutex_destroy` succeeds on a free mutex and fails on a held one;
* every `while` loop is a recursive function with a step budget; an exhausted budget
  is reported as `Fault.fuel`.
-/

namespace LL

/-- Ways in which a run of the C code fails to return normally. -/
inductive Fault where
  | nullDeref
  | dangling
  | deadlock
  | fuel
  deriving DecidableEq

/-- The node type `node_t` of `ll_API.h`: an opaque value and the `next` pointer. -/
structure node_t (α : Type) where
  val : α
  next : Option Nat

/-- The node heap: the live `node_t` cell at every address, if any. -/
abbrev Heap (α : Type) := Nat → Option (node_t α)

/-- Store `c` at address `a` (`c = none` frees the cell). -/
def Heap.set {α : Type} (h : Heap α) (a : Nat) (c : Option (node_t α)) : Heap α :=
  fun b => if b = a then c else h b

/-- The list header `ll_t` (`struct my_ll`). -/
structure ll_t (α : Type) where
  head : Option Nat
  tail : Option Nat
  comparator : Option (α → α → Int)
  print_val : Option (α → String)
  lock : Bool

/-- Program state seen by the operations on one handle: the node heap, the header
behind the handle (`none` for a `NULL` handle) and the global `callback_validate`. -/
structure State (α : Type) where
  heap : Heap α
  list : Option (ll_t α)
  callback_validate : Option (α → Int)

variable {α : Type}

/-- `LL_LOCK(lk)`: `pthread_mutex_lock(&lk->lock)`. -/
def LL_LOCK (l : ll_t α) : Except Fault (ll_t α) :=
  if l.lock then .error .deadlock else .ok { l with lock := true }

/-- `LL_UNLOCK(lk)`: `pthread_mutex_unlock(&lk->lock)`. -/
def LL_UNLOCK (l : ll_t α) : ll_t α :=
  { l with lock := false }

/-- `validate_head`: `-1` for a `NULL` list or a `NULL` head, `0` otherwise. -/
def validate_head (list : Option (ll_t α)) : Int :=
  match list with
  | none => -1
  | some l => if l.head = none then -1 else 0

/-- `ll_create`: `mallocOk` says whether `malloc` returned a block, `mutexOk` whether
`pthread_mutex_init` returned 0. When `malloc` fails the code still writes through
the `NULL` pointer. -/
def ll_create (mallocOk mutexOk : Bool) (ptr_print_val : Option (α → String))
    (ptr_comparator : Option (α → α → Int)) : Except Fault (Option (ll_t α)) :=
  if mallocOk then
    let list : ll_t α :=
      { head := none, tail := none, print_val := ptr_print_val,
        comparator := ptr_comparator, lock := false }
    if mutexOk then .ok (some list) else .ok none
  else .error .nullDeref

/-- `ll_set_data_validation_callback`: overwrite the global hook. -/
def ll_set_data_validation_callback (s : State α) (ptr_callback_validate : Option (α → Int)) :
    State α :=
  { s with callback_validate := ptr_callback_validate }

/-- The test `callback_validate != NULL` and `callback_validate(value) != 0` that opens
`ll_add_end`. -/
def validation_rejects (callback_validate : Option (α → Int)) (value : α) : Bool :=
  match callback_validate with
  | none => false
  | some f => decide (f value ≠ 0)

/-- `ll_add_end`; `m` is what `malloc(sizeof(node_t))` returns. -/
def ll_add_end (m : Option Nat) (s : State α) (value : α) : Except Fault (State α) :=
  match s.list with
  | none => .error .nullDeref
  | some l0 =>
    match LL_LOCK l0 with
    | .error e => .error e
    | .ok l =>
      if validation_rejects s.callback_validate value then
        .ok { s with list := some (LL_UNLOCK l) }
      else
        match m with
        | none => .ok { s with list := some (LL_UNLOCK l) }
        | some a =>
          let h1 := s.heap.set a (some { val := value, next := none })
          let l1 := if l.head = none then { l with head := some a } else l
          match l1.tail with
          | none => .ok { s with heap := h1, list := some (LL_UNLOCK { l1 with tail := some a }) }
          | some t =>
            match h1 t with
            | none => .error .dangling
            | some nd =>
              .ok { s with
                    heap := h1.set t (some { nd with next := some a }),
                    list := some (LL_UNLOCK { l1 with tail := some a }) }

/-- The `while (temp != NULL)` loop of `ll_delete`. Returns the heap, the header and
the final value of `temp` (the unlinked node, or `NULL` when nothing matched). -/
def ll_delete_loop (value : α) :
    Nat → Heap α → ll_t α → Option Nat → Option Nat →
      Except Fault (Heap α × ll_t α × Option Nat)
  | 0, _, _, _, _ => .error .fuel
  | _ + 1, h, l, none, _ => .ok (h, l, none)
  | fuel + 1, h, l, some t, prev =>
    match h t with
    | none => .error .dangling
    | some nd =>
      match l.comparator with
      | none => .error .nullDeref
      | some cmp =>
        if cmp nd.val value = 0 then
          let l1 := if some t = l.head then { l with head := nd.next } else l
          let l2 := if some t = l1.tail then { l1 with tail := prev } else l1
          match prev with
          | none => .ok (h, l2, some t)
          | some p =>
            match h p with
            | none => .error .dangling
            | some pn => .ok (h.set p (some { pn with next := nd.next }), l2, some t)
        else ll_delete_loop value fuel h l nd.next (some t)

/-- `free(p)`: a no-op on `NULL`. -/
def free (h : Heap α) (p : Option Nat) : Heap α :=
  match p with
  | none => h
  | some a => h.set a none

/-- `ll_delete`. -/
def ll_delete (fuel : Nat) (s : State α) (value : α) : Except Fault (State α) :=
  if validate_head s.list = -1 then .ok s
  else
    match s.list with
    | none => .error .nullDeref
    | some l0 =>
      match LL_LOCK l0 with
      | .error e => .error e
      | .ok l =>
        match ll_delete_loop value fuel s.heap l l.head none with
        | .error e => .error e
        | .ok (h, l1, temp) =>
          .ok { s with heap := free h temp, list := some (LL_UNLOCK l1) }

/-- The `while (temp != NULL)` loop of `ll_search_node`. -/
def ll_search_loop (comparator : Option (α → α → Int)) (value : α) :
    Nat → Heap α → Option Nat → Except Fault (Option Nat)
  | 0, _, _ => .error .fuel
  | _ + 1, _, none => .ok none
  | fuel + 1, h, some t =>
    match h t with
    | none => .error .dangling
    | some nd =>
      match comparator with
      | none => .error .nullDeref
      | some cmp =>
        if cmp nd.val value = 0 then .ok (some t)
        else ll_search_loop comparator value fuel h nd.next

/-- `ll_search_node`: the state on return and the node pointer returned. -/
def ll_search_node (fuel : Nat) (s : State α) (value : α) :
    Except Fault (State α × Option Nat) :=
  if validate_head s.list = -1 then .ok (s, none)
  else
    match s.list with
    | none => .error .nullDeref
    | some l0 =>
      match LL_LOCK l0 with
      | .error e => .error e
      | .ok l =>
        match ll_search_loop l.comparator value fuel s.heap l.head with
        | .error e => .error e
        | .ok r => .ok ({ s with list := some (LL_UNLOCK l) }, r)

/-- `swap`: exchange the values of the nodes `a` and `b`. -/
def swap (h : Heap α) (a b : Option Nat) : Except Fault (Heap α) :=
  match a, b with
  | none, _ => .error .nullDeref
  | some _, none => .error .nullDeref
  | some a, some b =>
    match h a, h b with
    | none, _ => .error .dangling
    | some _, none => .error .dangling
    | some na, some nb =>
      let h1 := h.set a (some { na with val := nb.val })
      match h1 b with
      | none => .error .dangling
      | some nb1 => .ok (h1.set b (some { nb1 with val := na.val }))

/-- The inner `while (ptr1->next != ptr2)` loop of `ll_sort_list`. Returns the heap,
the final `ptr1` and the flag `swapped`. -/
def ll_sort_inner (comparator : Option (α → α → Int)) (ptr2 : Option Nat) :
    Nat → Heap α → Option Nat → Bool → Except Fault (Heap α × Option Nat × Bool)
  | 0, _, _, _ => .error .fuel
  | _ + 1, _, none, _ => .error .nullDeref
  | fuel + 1, h, some p, swapped =>
    match h p with
    | none => .error .dangling
    | some n1 =>
      if n1.next = ptr2 then .ok (h, some p, swapped)
      else
        match comparator with
        | none => .error .nullDeref
        | some cmp =>
          match n1.next with
          | none => .error .nullDeref
          | some q =>
            match h q with
            | none => .error .dangling
            | some n2 =>
              if cmp n1.val n2.val = 1 then
                match swap h (some p) n1.next with
                | .error e => .error e
                | .ok h1 =>
                  match h1 p with
                  | none => .error .dangling
                  | some n1a => ll_sort_inner comparator ptr2 fuel h1 n1a.next true
              else ll_sort_inner comparator ptr2 fuel h n1.next swapped

/-- The `do ... while (swapped)` loop of `ll_sort_list`; `passes` bounds the number of
passes, `fuel` the steps of each inner loop. -/
def ll_sort_outer (fuel : Nat) (l : ll_t α) :
    Nat → Heap α → Option Nat → Except Fault (Heap α)
  | 0, _, _ => .error .fuel
  | passes + 1, h, ptr2 =>
    match ll_sort_inner l.comparator ptr2 fuel h l.head false with
    | .error e => .error e
    | .ok (h1, ptr1, swapped) =>
      if swapped then ll_sort_outer fuel l passes h1 ptr1 else .ok h1

/-- `ll_sort_list`. -/
def ll_sort_list (fuel : Nat) (s : State α) : Except Fault (State α) :=
  if validate_head s.list = -1 then .ok s
  else
    match s.list with
    | none => .error .nullDeref
    | some l0 =>
      match LL_LOCK l0 with
      | .error e => .error e
      | .ok l =>
        match ll_sort_outer fuel l fuel s.heap none with
        | .error e => .error e
        | .ok h => .ok { s with heap := h, list := some (LL_UNLOCK l) }

/-- The `while (list->head != NULL)` loop of `ll_flush_list`. -/
def ll_flush_loop : Nat → Heap α → ll_t α → Except Fault (Heap α × ll_t α)
  | 0, _, _ => .error .fuel
  | fuel + 1, h, l =>
    match l.head with
    | none => .ok (h, l)
    | some t =>
      match h t with
      | none => .error .dangling
      | some nd => ll_flush_loop fuel (free h (some t)) { l with head := nd.next }

/-- `ll_flush_list`. -/
def ll_flush_list (fuel : Nat) (s : State α) : Except Fault (State α) :=
  if validate_head s.list = -1 then .ok s
  else
    match s.list with
    | none => .error .nullDeref
    | some l0 =>
      match LL_LOCK l0 with
      | .error e => .error e
      | .ok l =>
        match ll_flush_loop fuel s.heap l with
        | .error e => .error e
        | .ok (h, l1) =>
          .ok { s with heap := h, list := some (LL_UNLOCK { l1 with tail := none }) }

/-- What `ll_print_list` emits: a call of the print callback on a value, or text
written by `DEBUG_PRINTF`. -/
inductive Event (α : Type) where
  | call (v : α)
  | text (t : String)

/-- `DEBUG_PRINTF(t)`: nothing when `NDEBUG` is defined, the text otherwise. -/
def DEBUG_PRINTF (ndebug : Bool) (t : String) : List (Event α) :=
  if ndebug then [] else [Event.text t]

/-- The `while (temp != NULL)` loop of `ll_print_list`. -/
def ll_print_loop (ndebug : Bool) (print_val : Option (α → String)) :
    Nat → Heap α → Option Nat → Except Fault (List (Event α))
  | 0, _, _ => .error .fuel
  | _ + 1, _, none => .ok []
  | fuel + 1, h, some t =>
    match h t with
    | none => .error .dangling
    | some nd =>
      match print_val with
      | none => .error .nullDeref
      | some _ =>
        match ll_print_loop ndebug print_val fuel h nd.next with
        | .error e => .error e
        | .ok out =>
          .ok (Event.call nd.val ::
            ((if nd.next ≠ none then DEBUG_PRINTF ndebug " ---> " else []) ++ out))

/-- `ll_print_list`: the state on return and the events emitted. -/
def ll_print_list (ndebug : Bool) (fuel : Nat) (s : State α) :
    Except Fault (State α × List (Event α)) :=
  if validate_head s.list = -1 then .ok (s, [])
  else
    match s.list with
    | none => .error .nullDeref
    | some l0 =>
      match LL_LOCK l0 with
      | .error e => .error e
      | .ok l =>
        match ll_print_loop ndebug l.print_val fuel s.heap l.head with
        | .error e => .error e
        | .ok out =>
          .ok ({ s with list := some (LL_UNLOCK l) }, out ++ DEBUG_PRINTF ndebug "\n")

/-- `ll_destroy_list`. The argument `list` of the C function is the address of the
caller's handle; `s.list` is that handle. `pthread_mutex_destroy` returns 0 on a free
mutex and an error on a held one, and on an error the function returns before
`free(*list)` and `(*list) = NULL`, which otherwise leave the caller with a `NULL`
handle. -/
def ll_destroy_list (fuel : Nat) (s : State α) : Except Fault (State α) :=
  match ll_flush_list fuel s with
  | .error e => .error e
  | .ok s1 =>
    match s1.list with
    | none => .error .nullDeref
    | some l => if l.lock then .ok s1 else .ok { s1 with list := none }

/-! ## Abstraction: the chain of cells behind a pointer -/

/-- `Seg h p cs q`: following `next` from the pointer `p` visits exactly the cells `cs`
(address and value, in order), every one of them live in `h`, and then arrives at `q`. -/
def Seg (h : Heap α) : Option Nat → List (Nat × α) → Option Nat → Prop
  | p, [], q => p = q
  | p, c :: cs, q => p = some c.1 ∧ ∃ nx, h c.1 = some ⟨c.2, nx⟩ ∧ Seg h nx cs q

/-- `IsList h l cs`: the header `l` owns the chain `cs`: the chain from `head` is `cs`
and ends in `NULL`, and `tail` points at the last cell (`NULL` when there is none). -/
def IsList (h : Heap α) (l : ll_t α) (cs : List (Nat × α)) : Prop :=
  Seg h l.head cs none ∧ l.tail = cs.getLast?.map Prod.fst

/-- `Models s cs`: the handle of `s` is either `NULL` (then it holds nothing) or an
unlocked header owning the chain `cs`. -/
def Models (s : State α) (cs : List (Nat × α)) : Prop :=
  match s.list with
  | none => cs = []
  | some l => IsList s.heap l cs ∧ l.lock = false

/-- Follow `next` from `p` for `k` steps (`NULL` once the chain leaves the live heap). -/
def steps (h : Heap α) : Nat → Option Nat → Option Nat
  | 0, p => p
  | _ + 1, none => none
  | k + 1, some a =>
    match h a with
    | none => none
    | some nd => steps h k nd.next

/-- The structural invariant the code maintains, for a list of `n` elements: `head` is
`NULL` iff the list is empty, `tail` is `NULL` iff the list is empty, the walk along
`next` from `head` visits exactly `n` nodes and the `n`-th of them is `tail` (the pointer
after `n - 1` steps of `next` is `tail`, the pointer after `n` steps is `NULL`), and the
`next` of `tail` is `NULL`. -/
def Invariant (h : Heap α) (l : ll_t α) (n : Nat) : Prop :=
  (l.head = none ↔ n = 0) ∧ (l.tail = none ↔ n = 0) ∧
  (0 < n → steps h (n - 1) l.head = l.tail) ∧ steps h n l.head = none ∧
  (∀ t, l.tail = some t → ∃ nd, h t = some nd ∧ nd.next = none)

/-- The structural invariant in the words of the data model, for a list of `n` elements:
`head` is `NULL` iff the list is empty, `tail` is `NULL` iff the list is empty, following
`next` from `head` reaches `tail` after exactly `n` steps, and the `next` of `tail` is
`NULL`. -/
def InvariantAsStated (h : Heap α) (l : ll_t α) (n : Nat) : Prop :=
  (l.head = none ↔ n = 0) ∧ (l.tail = none ↔ n = 0) ∧
  steps h n l.head = l.tail ∧
  (∀ t, l.tail = some t → ∃ nd, h t = some nd ∧ nd.next = none)

/-- Append the values `xs` one after the other, the node of each at the address given
with it. -/
def add_end_seq : State α → List (Nat × α) → Except Fault (State α)
  | s, [] => .ok s
  | s, x :: xs =>
    match ll_add_end (some x.1) s x.2 with
    | .error e => .error e
    | .ok s1 => add_end_seq s1 xs

/-! ## The sort on the sequence of values

The sort never relinks a node, it only exchanges values, so its effect on a chain is
described by what it does to the sequence of values read from head to tail. -/

/-- One run of the inner loop of `ll_sort_list` on the values: `x` is the value at
`ptr1`, the list holds the values after it, up to the boundary `ptr2`. -/
def bubbleFrom (cmp : α → α → Int) : α → List α → List α
  | x, [] => [x]
  | x, y :: r => if cmp x y = 1 then y :: bubbleFrom cmp x r else x :: bubbleFrom cmp y r

/-- Whether that run of the inner loop sets `swapped`. -/
def swappedFrom (cmp : α → α → Int) : α → List α → Bool
  | _, [] => false
  | x, y :: r => if cmp x y = 1 then true else swappedFrom cmp y r

/-- The `do ... while (swapped)` loop on the values, at most `n` passes: `pre` holds the
values before the boundary `ptr2`, `post` the values from the boundary on. After a pass
with a swap the boundary moves to the last node of `pre`. -/
def bubbleLoop (cmp : α → α → Int) : Nat → List α → List α → List α
  | 0, pre, post => pre ++ post
  | _ + 1, [], post => post
  | n + 1, x :: r, post =>
    if swappedFrom cmp x r then
      bubbleLoop cmp n (bubbleFrom cmp x r).dropLast
        ((bubbleFrom cmp x r).getLast?.toList ++ post)
    else bubbleFrom cmp x r ++ post

/-- The contract of the comparator for sorting: `le` is a total preorder on the values
and `cmp a b` is 1 exactly when `a` is strictly greater than `b`. -/
def GreaterIsOne (cmp : α → α → Int) (le : α → α → Prop) : Prop :=
  (∀ a b, le a b ∨ le b a) ∧ (∀ a b c, le a b → le b c → le a c) ∧
  (∀ a b, cmp a b = 1 ↔ (le b a ∧ ¬ le a b))

/-! ## Observations on runs -/

/-- The values on which the print callback was invoked, in order. -/
def calls : List (Event α) → List α
  | [] => []
  | Event.call v :: r => v :: calls r
  | Event.text _ :: r => calls r

/-- The text written by `DEBUG_PRINTF`, in order. -/
def texts : List (Event α) → List String
  | [] => []
  | Event.call _ :: r => texts r
  | Event.text t :: r => t :: texts r

/-- What the loop of `ll_print_list` emits on a chain holding these values: a call per
value, and the arrow between two neighbours. -/
def print_events (ndebug : Bool) : List α → List (Event α)
  | [] => []
  | v :: r =>
    Event.call v ::
      ((if r.isEmpty then [] else DEBUG_PRINTF ndebug " ---> ") ++ print_events ndebug r)

/-- The state with the comparator of its header replaced by `c`. With `c = none` this
forgets the comparator, so that runs under different comparators can be compared. -/
def with_comparator (s : State α) (c : Option (α → α → Int)) : State α :=
  { s with list := s.list.map (fun l => { l with comparator := c }) }

/-- A run ended in an invalid access: a `NULL` or a dead pointer was dereferenced. -/
def BadAccess {β : Type} (r : Except Fault β) : Prop :=
  r = .error .nullDeref ∨ r = .error .dangling

/-! ## A concrete list

The list 5, 3, 9 held in nodes at the addresses 10, 11 and 12, with a three-way
comparison of integers as comparator. -/

/-- A three-way comparison of integers, as a caller passes it to `ll_create`. -/
def int_compare (a b : Int) : Int :=
  if a < b then -1 else if a = b then 0 else 1

/-- A validation hook that refuses negative integers. -/
def reject_negative (v : Int) : Int :=
  if v < 0 then 1 else 0

/-- The node heap of the concrete list. -/
def demo_heap : Heap Int := fun a =>
  if a = 10 then some ⟨5, some 11⟩
  else if a = 11 then some ⟨3, some 12⟩
  else if a = 12 then some ⟨9, none⟩
  else none

/-- The header of the concrete list. -/
def demo_list : ll_t Int :=
  { head := some 10, tail := some 12, comparator := some int_compare,
    print_val := some (fun v => toString v), lock := false }

/-- The concrete list, no validation hook set. -/
def demo_state : State Int :=
  { heap := demo_heap, list := some demo_list, callback_validate := none }

/-- The concrete list with the hook `reject_negative` set. -/
def demo_state_validated : State Int :=
  ll_set_data_validation_callback demo_state (some reject_negative)

/-- The chain of the concrete list. -/
def demo_cells : List (Nat × Int) := [(10, 5), (11, 3), (12, 9)]

/-- The concrete list with an inconsistent comparator, one that always answers 1. -/
def demo_state_always_one : State Int :=
  { heap := demo_heap,
    list := some { demo_list with comparator := some (fun _ _ => 1) },
    callback_validate := none }

/-- A comparator that never answers 1: -1 on smaller first arguments, 0 otherwise. -/
def less_or_zero (a b : Int) : Int :=
  if a < b then -1 else 0

/-- The concrete list with the comparator `less_or_zero`. -/
def demo_state_never_one : State Int :=
  { heap := demo_heap,
    list := some { demo_list with comparator := some less_or_zero },
    callback_validate := none }

/-! ## Lemmas on chains -/

@[simp] theorem Heap.set_same (h : Heap α) (a : Nat) (c : Option (node_t α)) :
    h.set a c a = c := by
  simp [Heap.set]

theorem Heap.set_other {h : Heap α} {a b : Nat} {c : Option (node_t α)} (hne : b ≠ a) :
    h.set a c b = h b := by
  simp [Heap.set, hne]

@[simp] theorem Seg_nil (h : Heap α) (p q : Option Nat) : Seg h p [] q ↔ p = q := Iff.rfl

@[simp] theorem Seg_cons (h : Heap α) (p q : Option Nat) (c : Nat × α) (cs : List (Nat × α)) :
    Seg h p (c :: cs) q ↔ p = some c.1 ∧ ∃ nx, h c.1 = some ⟨c.2, nx⟩ ∧ Seg h nx cs q :=
  Iff.rfl

theorem Seg_append (h : Heap α) (xs ys : List (Nat × α)) (p q : Option Nat) :
    Seg h p (xs ++ ys) q ↔ ∃ m, Seg h p xs m ∧ Seg h m ys q := by
  induction xs generalizing p with
  | nil => simp
  | cons c xs ih =>
    simp only [List.cons_append, Seg_cons, ih]
    constructor
    · rintro ⟨hp, nx, hc, m, h1, h2⟩
      exact ⟨m, ⟨hp, nx, hc, h1⟩, h2⟩
    · rintro ⟨m, ⟨hp, nx, hc, h1⟩, h2⟩
      exact ⟨hp, nx, hc, m, h1, h2⟩

theorem Seg_frame {h h1 : Heap α} {cs : List (Nat × α)} {p q : Option Nat}
    (hs : Seg h p cs q) (hf : ∀ c ∈ cs, h1 c.1 = h c.1) : Seg h1 p cs q := by
  induction cs generalizing p with
  | nil => simpa using hs
  | cons c cs ih =>
    obtain ⟨hp, nx, hc, hr⟩ := hs
    refine ⟨hp, nx, ?_, ih hr (fun d hd => hf d (List.mem_cons_of_mem _ hd))⟩
    rw [hf c (List.mem_cons_self _ _)]; exact hc

theorem Seg_live {h : Heap α} {cs : List (Nat × α)} {p q : Option Nat}
    (hs : Seg h p cs q) : ∀ c ∈ cs, ∃ nx, h c.1 = some ⟨c.2, nx⟩ := by
  induction cs generalizing p with
  | nil => simp
  | cons c cs ih =>
    obtain ⟨_, nx, hc, hr⟩ := hs
    intro d hd
    rcases List.mem_cons.1 hd with rfl | hd
    · exact ⟨nx, hc⟩
    · exact ih hr d hd

theorem Seg_det {h : Heap α} {cs cs1 : List (Nat × α)} {p : Option Nat}
    (hs : Seg h p cs none) (hs1 : Seg h p cs1 none) : cs = cs1 := by
  induction cs generalizing p cs1 with
  | nil =>
    cases cs1 with
    | nil => rfl
    | cons c cs1 =>
      obtain ⟨hp, _⟩ := hs1
      simp only [Seg_nil] at hs
      rw [hs] at hp; cases hp
  | cons c cs ih =>
    obtain ⟨hp, nx, hc, hr⟩ := hs
    cases cs1 with
    | nil =>
      simp only [Seg_nil] at hs1
      rw [hs1] at hp; cases hp
    | cons d cs1 =>
      obtain ⟨hp1, nx1, hd, hr1⟩ := hs1
      rw [hp] at hp1
      have hcd : c.1 = d.1 := Option.some.inj hp1
      rw [← hcd, hc] at hd
      have hnode := Option.some.inj hd
      have hv : c.2 = d.2 := congrArg node_t.val hnode
      have hn : nx = nx1 := congrArg node_t.next hnode
      subst hn
      rw [ih hr hr1]
      congr 1
      exact Prod.ext hcd hv

theorem Seg_nodup {h : Heap α} {cs : List (Nat × α)} {p : Option Nat}
    (hs : Seg h p cs none) : (cs.map Prod.fst).Nodup := by
  induction cs generalizing p with
  | nil => simp
  | cons c cs ih =>
    have hs0 := hs
    obtain ⟨hp, nx, hc, hr⟩ := hs
    rw [List.map_cons, List.nodup_cons]
    refine ⟨?_, ih hr⟩
    intro hmem
    obtain ⟨d, hd, hdc⟩ := List.mem_map.1 hmem
    obtain ⟨l1, l2, rfl⟩ := List.append_of_mem hd
    obtain ⟨m, _, h2⟩ := (Seg_append h l1 (d :: l2) nx none).1 hr
    have h2a : Seg h p (d :: l2) none := by
      obtain ⟨hm, rest⟩ := h2
      exact ⟨by rw [hp, hdc], rest⟩
    have := congrArg List.length (Seg_det hs0 h2a)
    simp at this
    omega

/-! ## `ll_add_end` -/

theorem validate_accepts {cb : Option (α → Int)} {value : α}
    (hval : ∀ f, cb = some f → f value = 0) :
    validation_rejects cb value = false := by
  cases cb with
  | none => rfl
  | some f => simp [validation_rejects, hval f rfl]

theorem add_end_spec {s : State α} {l : ll_t α} {cs : List (Nat × α)} {a : Nat} {value : α}
    (hl : s.list = some l) (hlock : l.lock = false) (hR : IsList s.heap l cs)
    (hfresh : s.heap a = none) (hv : validation_rejects s.callback_validate value = false) :
    ∃ s1 l1, ll_add_end (some a) s value = .ok s1 ∧ s1.list = some l1 ∧
      IsList s1.heap l1 (cs ++ [(a, value)]) ∧ l1.lock = false ∧
      l1.comparator = l.comparator ∧ l1.print_val = l.print_val ∧
      s1.callback_validate = s.callback_validate ∧
      (∀ b, b ≠ a → s.heap b = none → s1.heap b = none) := by
  obtain ⟨hseg, htail⟩ := hR
  rcases List.eq_nil_or_concat cs with rfl | ⟨init, c, rfl⟩
  · -- empty list: the new node becomes head and tail
    have hhead : l.head = none := by simpa using hseg
    have htl : l.tail = none := by simpa using htail
    simp only [ll_add_end, hl, LL_LOCK, hlock, hv, hhead, htl, Bool.false_eq_true, ↓reduceIte]
    refine ⟨_, _, rfl, rfl, ⟨?_, ?_⟩, rfl, rfl, rfl, rfl, ?_⟩
    · simp [LL_UNLOCK]
    · simp [LL_UNLOCK]
    · intro b hb hn
      simp [Heap.set_other hb, hn]
  · -- non-empty list: the old tail is linked to the new node
    rw [List.concat_eq_append] at hseg htail ⊢
    obtain ⟨m, hinit, hlast⟩ := (Seg_append _ _ _ _ _).1 hseg
    obtain ⟨hm, nx, hc, hnx⟩ := hlast
    simp only [Seg_nil] at hnx
    subst hnx
    have htl : l.tail = some c.1 := by rw [htail]; simp
    have hnd := Seg_nodup hseg
    have hca : c.1 ≠ a := by
      intro h; rw [h, hfresh] at hc; cases hc
    have hh : l.head ≠ none := by
      cases init with
      | nil => simp only [Seg_nil] at hinit; rw [hinit, hm]; simp
      | cons d init => obtain ⟨hp, _⟩ := hinit; rw [hp]; simp
    have h1c : (s.heap.set a (some { val := value, next := none })) c.1
        = some ⟨c.2, none⟩ := by
      rw [Heap.set_other hca, hc]
    simp only [ll_add_end, hl, LL_LOCK, hlock, hv, hh, htl, h1c, Bool.false_eq_true, ↓reduceIte]
    refine ⟨_, _, rfl, rfl, ?_, rfl, rfl, rfl, rfl, ?_⟩
    · refine ⟨?_, ?_⟩
      · simp only [LL_UNLOCK, List.append_assoc]
        rw [Seg_append]
        refine ⟨m, Seg_frame hinit ?_, ?_⟩
        · intro d hd
          have hdc : d.1 ≠ c.1 := by
            intro h
            rw [List.map_append, List.nodup_append] at hnd
            exact hnd.2.2 (List.mem_map_of_mem _ hd) (by simp [h])
          have hda : d.1 ≠ a := by
            intro h
            obtain ⟨nx, hx⟩ := Seg_live hinit d hd
            rw [h, hfresh] at hx; cases hx
          rw [Heap.set_other hdc, Heap.set_other hda]
        · refine ⟨hm, some a, by simp, rfl, none, ?_, rfl⟩
          rw [Heap.set_other (Ne.symm hca)]
          simp
      · simp [LL_UNLOCK]
    · intro b hb hn
      have hbc : b ≠ c.1 := by
        intro h; rw [h, hc] at hn; cases hn
      show (Heap.set _ _ _) b = none
      rw [Heap.set_other hbc, Heap.set_other hb, hn]

theorem unlock_lock {l : ll_t α} (hlock : l.lock = false) :
    LL_UNLOCK { l with lock := true } = l := by
  cases l
  simp only [LL_UNLOCK] at *
  simp [hlock]

theorem State.list_eta {s : State α} {l : ll_t α} (hl : s.list = some l) :
    { s with list := some l } = s := by
  cases s
  simp only at hl
  simp [hl]

theorem add_end_rejected {s : State α} {l : ll_t α} {value : α} (m : Option Nat)
    (hl : s.list = some l) (hlock : l.lock = false)
    (hv : validation_rejects s.callback_validate value = true) :
    ll_add_end m s value = .ok s := by
  simp only [ll_add_end, hl, LL_LOCK, hlock, hv, Bool.false_eq_true, ↓reduceIte,
    unlock_lock hlock, State.list_eta hl]

theorem add_end_no_memory {s : State α} {l : ll_t α} {value : α}
    (hl : s.list = some l) (hlock : l.lock = false) :
    ll_add_end none s value = .ok s := by
  cases hv : validation_rejects s.callback_validate value
  · simp only [ll_add_end, hl, LL_LOCK, hlock, hv, Bool.false_eq_true, ↓reduceIte,
      unlock_lock hlock, State.list_eta hl]
  · exact add_end_rejected none hl hlock hv

theorem add_end_seq_spec (xs : List (Nat × α)) :
    ∀ (s : State α) (l : ll_t α) (cs : List (Nat × α)),
      s.list = some l → l.lock = false → IsList s.heap l cs →
      (xs.map Prod.fst).Nodup → (∀ x ∈ xs, s.heap x.1 = none) →
      (∀ x ∈ xs, validation_rejects s.callback_validate x.2 = false) →
      ∃ s1 l1, add_end_seq s xs = .ok s1 ∧ s1.list = some l1 ∧
        IsList s1.heap l1 (cs ++ xs) ∧ l1.lock = false ∧
        l1.comparator = l.comparator ∧ l1.print_val = l.print_val ∧
        s1.callback_validate = s.callback_validate := by
  induction xs with
  | nil =>
    intro s l cs hl hlock hR _ _ _
    exact ⟨s, l, rfl, hl, by simpa using hR, hlock, rfl, rfl, rfl⟩
  | cons x xs ih =>
    intro s l cs hl hlock hR hnd hfresh hv
    rw [List.map_cons, List.nodup_cons] at hnd
    obtain ⟨s1, l1, he, hl1, hR1, hlock1, hc1, hp1, hcb1, hfr1⟩ :=
      add_end_spec hl hlock hR (hfresh x (List.mem_cons_self _ _))
        (hv x (List.mem_cons_self _ _))
    have hx : (x.1, x.2) = x := rfl
    rw [hx] at hR1
    obtain ⟨s2, l2, he2, hl2, hR2, hlock2, hc2, hp2, hcb2⟩ :=
      ih s1 l1 (cs ++ [x]) hl1 hlock1 hR1 hnd.2
        (fun y hy => hfr1 y.1
          (fun h => hnd.1 (h ▸ List.mem_map_of_mem _ hy))
          (hfresh y (List.mem_cons_of_mem _ hy)))
        (fun y hy => by rw [hcb1]; exact hv y (List.mem_cons_of_mem _ hy))
    refine ⟨s2, l2, ?_, hl2, ?_, hlock2, hc2.trans hc1, hp2.trans hp1, hcb2.trans hcb1⟩
    · simp only [add_end_seq, he, he2]
    · simpa using hR2

/-! ## The invariant of the data model and the chain abstraction agree -/

theorem steps_of_Seg {h : Heap α} {xs : List (Nat × α)} {p q : Option Nat}
    (hs : Seg h p xs q) : steps h xs.length p = q := by
  induction xs generalizing p with
  | nil => simpa [steps] using hs
  | cons c xs ih =>
    obtain ⟨hp, nx, hc, hr⟩ := hs
    subst hp
    simp only [List.length_cons, steps, hc]
    exact ih hr

theorem Seg_of_steps (h : Heap α) (k : Nat) :
    ∀ (p : Option Nat) (t : Nat) (nd : node_t α),
      steps h k p = some t → h t = some nd → nd.next = none →
      ∃ cs : List (Nat × α), cs.length = k + 1 ∧ Seg h p cs none ∧
        cs.getLast?.map Prod.fst = some t := by
  induction k with
  | zero =>
    intro p t nd hp ht hn
    refine ⟨[(t, nd.val)], rfl, ⟨by simpa [steps] using hp, none, ?_, rfl⟩, rfl⟩
    rw [ht]; cases nd; simp only at hn; simp [hn]
  | succ k ih =>
    intro p t nd hp ht hn
    cases p with
    | none => simp [steps] at hp
    | some a =>
      cases ha : h a with
      | none => simp [steps, ha] at hp
      | some na =>
        simp only [steps, ha] at hp
        obtain ⟨cs, hlen, hseg, hlast⟩ := ih na.next t nd hp ht hn
        refine ⟨(a, na.val) :: cs, by simp [hlen], ⟨rfl, na.next, ha, hseg⟩, ?_⟩
        cases cs with
        | nil => simp at hlen
        | cons c cs => simpa [List.getLast?_cons_cons] using hlast

theorem Invariant_of_IsList {h : Heap α} {l : ll_t α} {cs : List (Nat × α)}
    (hR : IsList h l cs) : Invariant h l cs.length := by
  obtain ⟨hseg, htail⟩ := hR
  rcases List.eq_nil_or_concat cs with rfl | ⟨init, c, rfl⟩
  · have hhead : l.head = none := by simpa using hseg
    have htl : l.tail = none := by simpa using htail
    refine ⟨by simp [hhead], by simp [htl], by simp, by simp [steps, hhead], ?_⟩
    intro t ht; rw [htl] at ht; cases ht
  · rw [List.concat_eq_append] at hseg htail ⊢
    have hall := steps_of_Seg hseg
    obtain ⟨m, hinit, hm, nx, hc, hnx⟩ := (Seg_append _ _ _ _ _).1 hseg
    simp only [Seg_nil] at hnx
    subst hnx
    have htl : l.tail = some c.1 := by rw [htail]; simp
    have hh : l.head ≠ none := by
      cases init with
      | nil => simp only [Seg_nil] at hinit; rw [hinit, hm]; simp
      | cons d init => obtain ⟨hp, _⟩ := hinit; rw [hp]; simp
    refine ⟨by simp [hh], by simp [htl], ?_, hall, ?_⟩
    · intro _
      have := steps_of_Seg hinit
      simpa [htl, hm] using this
    · intro t ht
      rw [htl] at ht
      cases ht
      exact ⟨_, hc, rfl⟩

theorem IsList_of_Invariant {h : Heap α} {l : ll_t α} {n : Nat}
    (hI : Invariant h l n) : ∃ cs : List (Nat × α), cs.length = n ∧ IsList h l cs := by
  obtain ⟨hhead, htail, hsteps, _, hlast⟩ := hI
  cases n with
  | zero =>
    refine ⟨[], rfl, ?_, ?_⟩
    · simpa using hhead.2 rfl
    · simpa using htail.2 rfl
  | succ k =>
    cases ht : l.tail with
    | none => exact absurd (htail.1 ht) (by simp)
    | some t =>
      obtain ⟨nd, hnd, hnx⟩ := hlast t ht
      have hs := hsteps (Nat.succ_pos k)
      rw [ht] at hs
      obtain ⟨cs, hlen, hseg, hl⟩ := Seg_of_steps h k l.head t nd (by simpa using hs) hnd hnx
      exact ⟨cs, hlen, hseg, by rw [hl]; exact ht⟩

/-! ## Entry guard -/

theorem Seg_none_nil {h : Heap α} {cs : List (Nat × α)} (hs : Seg h none cs none) :
    cs = [] := by
  cases cs with
  | nil => rfl
  | cons c cs => obtain ⟨hp, _⟩ := hs; cases hp

theorem validate_head_some {l : ll_t α} (hh : l.head ≠ none) :
    validate_head (some l) = 0 := by
  simp [validate_head, hh]

theorem validate_head_empty {l : ll_t α} (hh : l.head = none) :
    validate_head (some l) = -1 := by
  simp [validate_head, hh]

theorem Models_guard {s : State α} {cs : List (Nat × α)} (hM : Models s cs)
    (hv : validate_head s.list = -1) : cs = [] := by
  unfold Models at hM
  cases hl : s.list with
  | none => rw [hl] at hM; exact hM
  | some l =>
    rw [hl] at hM hv
    by_cases hh : l.head = none
    · have hseg := hM.1.1
      rw [hh] at hseg
      exact Seg_none_nil hseg
    · rw [validate_head_some hh] at hv
      cases hv

theorem Models_nonempty {s : State α} {cs : List (Nat × α)} (hM : Models s cs)
    (hne : cs ≠ []) :
    ∃ l, s.list = some l ∧ IsList s.heap l cs ∧ l.lock = false ∧ l.head ≠ none := by
  unfold Models at hM
  cases hl : s.list with
  | none => rw [hl] at hM; exact absurd hM hne
  | some l =>
    rw [hl] at hM
    refine ⟨l, rfl, hM.1, hM.2, ?_⟩
    intro hh
    have hseg := hM.1.1
    rw [hh] at hseg
    exact hne (Seg_none_nil hseg)

theorem Models_some {s : State α} {l : ll_t α} {cs : List (Nat × α)}
    (hl : s.list = some l) : Models s cs ↔ IsList s.heap l cs ∧ l.lock = false := by
  unfold Models
  rw [hl]

/-! ## `ll_search_node` -/

theorem search_loop_spec (cmp : α → α → Int) (value : α) (h : Heap α)
    (cs : List (Nat × α)) :
    ∀ (fuel : Nat) (p : Option Nat), Seg h p cs none → cs.length < fuel →
      ll_search_loop (some cmp) value fuel h p
        = .ok ((cs.find? (fun c => decide (cmp c.2 value = 0))).map Prod.fst) := by
  induction cs with
  | nil =>
    intro fuel p hs hf
    simp only [Seg_nil] at hs
    subst hs
    cases fuel with
    | zero => simp at hf
    | succ fuel => rfl
  | cons c cs ih =>
    intro fuel p hs hf
    obtain ⟨hp, nx, hc, hr⟩ := hs
    subst hp
    cases fuel with
    | zero => simp at hf
    | succ fuel =>
      simp only [List.length_cons, Nat.add_lt_add_iff_right] at hf
      simp only [ll_search_loop, hc]
      by_cases hm : cmp c.2 value = 0
      · simp [hm, List.find?_cons]
      · simp only [hm, ↓reduceIte, List.find?_cons, decide_False]
        exact ih fuel nx hr hf

theorem search_spec {s : State α} {cs : List (Nat × α)} {cmp : α → α → Int}
    (value : α) {fuel : Nat} (hM : Models s cs)
    (hcmp : ∀ l, s.list = some l → l.comparator = some cmp) (hf : cs.length < fuel) :
    ll_search_node fuel s value
      = .ok (s, (cs.find? (fun c => decide (cmp c.2 value = 0))).map Prod.fst) := by
  by_cases hv : validate_head s.list = -1
  · have := Models_guard hM hv
    subst this
    simp [ll_search_node, hv]
  · have hne : cs ≠ [] := by
      intro h
      subst h
      apply hv
      unfold Models at hM
      cases hl : s.list with
      | none => rfl
      | some l =>
        rw [hl] at hM
        exact validate_head_empty (by simpa using hM.1.1)
    obtain ⟨l, hl, hR, hlock, _⟩ := Models_nonempty hM hne
    have hloop := search_loop_spec cmp value s.heap cs fuel l.head hR.1 hf
    rw [← hcmp l hl] at hloop
    rw [hl] at hv
    simp only [ll_search_node, hv, ↓reduceIte, hl, LL_LOCK, hlock, Bool.false_eq_true,
      hloop, unlock_lock hlock, State.list_eta hl]

theorem find_none_iff (P : Nat × α → Bool) (cs : List (Nat × α)) :
    (cs.find? P).map Prod.fst = none ↔ ∀ c ∈ cs, P c = false := by
  simp [List.find?_eq_none]

theorem find_some_split (P : Nat × α → Bool) (cs : List (Nat × α)) (a : Nat)
    (hfind : (cs.find? P).map Prod.fst = some a) :
    ∃ pre x post, cs = pre ++ (a, x) :: post ∧ P (a, x) = true ∧ ∀ c ∈ pre, P c = false := by
  induction cs with
  | nil => simp at hfind
  | cons c cs ih =>
    by_cases hc : P c = true
    · rw [List.find?_cons_of_pos _ hc] at hfind
      simp only [Option.map_some', Option.some.injEq] at hfind
      refine ⟨[], c.2, cs, ?_, ?_, by simp⟩
      · rw [← hfind]; rfl
      · rw [← hfind]; exact hc
    · rw [List.find?_cons_of_neg _ hc] at hfind
      obtain ⟨pre, x, post, he, hp, hn⟩ := ih hfind
      refine ⟨c :: pre, x, post, by rw [he]; rfl, hp, ?_⟩
      intro d hd
      rcases List.mem_cons.1 hd with rfl | hd
      · simpa using hc
      · exact hn d hd

/-! ## `ll_flush_list` -/

theorem flush_loop_spec (cs : List (Nat × α)) :
    ∀ (fuel : Nat) (h : Heap α) (l : ll_t α), Seg h l.head cs none → cs.length < fuel →
      ∃ h1, ll_flush_loop fuel h l = .ok (h1, { l with head := none }) ∧
        (∀ c ∈ cs, h1 c.1 = none) ∧ (∀ b, b ∉ cs.map Prod.fst → h1 b = h b) := by
  induction cs with
  | nil =>
    intro fuel h l hs hf
    simp only [Seg_nil] at hs
    cases fuel with
    | zero => simp at hf
    | succ fuel =>
      refine ⟨h, ?_, by simp, fun _ _ => rfl⟩
      simp only [ll_flush_loop, hs]
      cases l
      simp only at hs
      simp [hs]
  | cons c cs ih =>
    intro fuel h l hs hf
    have hnd := Seg_nodup hs
    obtain ⟨hp, nx, hc, hr⟩ := hs
    cases fuel with
    | zero => simp at hf
    | succ fuel =>
      simp only [List.length_cons, Nat.add_lt_add_iff_right] at hf
      rw [List.map_cons, List.nodup_cons] at hnd
      have hr1 : Seg (free h (some c.1)) ({ l with head := nx } : ll_t α).head cs none := by
        refine Seg_frame hr ?_
        intro d hd
        have : d.1 ≠ c.1 := fun e => hnd.1 (e ▸ List.mem_map_of_mem _ hd)
        simp [free, Heap.set_other this]
      obtain ⟨h1, he, hfreed, hframe⟩ := ih fuel _ _ hr1 hf
      refine ⟨h1, ?_, ?_, ?_⟩
      · simp only [ll_flush_loop, hp, hc]
        exact he
      · intro d hd
        rcases List.mem_cons.1 hd with rfl | hd
        · rw [hframe _ hnd.1]
          simp [free]
        · exact hfreed d hd
      · intro b hb
        rw [List.map_cons, List.mem_cons, not_or] at hb
        rw [hframe b hb.2]
        simp [free, Heap.set_other hb.1]

theorem flush_spec {s : State α} {cs : List (Nat × α)} {fuel : Nat}
    (hM : Models s cs) (hf : cs.length < fuel) :
    ∃ s1, ll_flush_list fuel s = .ok s1 ∧ Models s1 [] ∧
      (∀ l1, s1.list = some l1 → l1.head = none ∧ l1.tail = none) ∧
      (∀ c ∈ cs, s1.heap c.1 = none) ∧
      (∀ l, s.list = some l → ∃ l1, s1.list = some l1 ∧
        l1.comparator = l.comparator ∧ l1.print_val = l.print_val) ∧
      (s.list = none → s1.list = none) ∧
      s1.callback_validate = s.callback_validate := by
  by_cases hv : validate_head s.list = -1
  · have := Models_guard hM hv
    subst this
    refine ⟨s, by simp [ll_flush_list, hv], hM, ?_, by simp, fun l hl => ⟨l, hl, rfl, rfl⟩,
      id, rfl⟩
    intro l1 hl1
    rw [Models_some hl1] at hM
    obtain ⟨⟨hseg, htail⟩, _⟩ := hM
    exact ⟨by simpa using hseg, by simpa using htail⟩
  · cases hl : s.list with
    | none => rw [hl] at hv; exact absurd rfl hv
    | some l =>
      rw [Models_some hl] at hM
      obtain ⟨⟨hseg, _⟩, hlock⟩ := hM
      obtain ⟨h1, he, hfreed, _⟩ :=
        flush_loop_spec cs fuel s.heap ({ l with lock := true } : ll_t α) hseg hf
      rw [hl] at hv
      simp only [ll_flush_list, hl, hv, ↓reduceIte, LL_LOCK, hlock, Bool.false_eq_true, he]
      refine ⟨_, rfl, ?_, ?_, hfreed, ?_, ?_, rfl⟩
      · exact ⟨⟨rfl, rfl⟩, rfl⟩
      · intro l1 hl1
        cases hl1
        exact ⟨rfl, rfl⟩
      · intro l0 hl0
        cases hl0
        exact ⟨_, rfl, rfl, rfl⟩
      · intro h0; cases h0

/-! ## `ll_print_list` -/

theorem print_loop_ok (ndebug : Bool) (f : α → String) (h : Heap α)
    (cs : List (Nat × α)) :
    ∀ (fuel : Nat) (p : Option Nat), Seg h p cs none → cs.length < fuel →
      ∃ out, ll_print_loop ndebug (some f) fuel h p = .ok out := by
  induction cs with
  | nil =>
    intro fuel p hs hf
    simp only [Seg_nil] at hs
    subst hs
    cases fuel with
    | zero => simp at hf
    | succ fuel => exact ⟨[], rfl⟩
  | cons c cs ih =>
    intro fuel p hs hf
    obtain ⟨hp, nx, hc, hr⟩ := hs
    subst hp
    cases fuel with
    | zero => simp at hf
    | succ fuel =>
      simp only [List.length_cons, Nat.add_lt_add_iff_right] at hf
      obtain ⟨out, ho⟩ := ih fuel nx hr hf
      simp only [ll_print_loop, hc, ho]
      exact ⟨_, rfl⟩

theorem print_spec {s : State α} {cs : List (Nat × α)} {f : α → String} (ndebug : Bool)
    {fuel : Nat} (hM : Models s cs)
    (hpv : ∀ l, s.list = some l → l.print_val = some f) (hf : cs.length < fuel) :
    ∃ out, ll_print_list ndebug fuel s = .ok (s, out) := by
  by_cases hv : validate_head s.list = -1
  · exact ⟨[], by simp [ll_print_list, hv]⟩
  · cases hl : s.list with
    | none => rw [hl] at hv; exact absurd rfl hv
    | some l =>
      rw [Models_some hl] at hM
      obtain ⟨⟨hseg, _⟩, hlock⟩ := hM
      obtain ⟨out, ho⟩ := print_loop_ok ndebug f s.heap cs fuel l.head hseg hf
      rw [← hpv l hl] at ho
      rw [hl] at hv
      simp only [ll_print_list, hl, hv, ↓reduceIte, LL_LOCK, hlock, Bool.false_eq_true,
        ho, unlock_lock hlock, State.list_eta hl]
      exact ⟨_, rfl⟩

/-! ## `ll_delete` -/

theorem delete_loop_nomatch (cmp : α → α → Int) (value : α) (h : Heap α) (l : ll_t α)
    (hcmp : l.comparator = some cmp) (cs : List (Nat × α)) :
    ∀ (fuel : Nat) (p prev : Option Nat), Seg h p cs none →
      (∀ c ∈ cs, cmp c.2 value ≠ 0) → cs.length < fuel →
      ll_delete_loop value fuel h l p prev = .ok (h, l, none) := by
  induction cs with
  | nil =>
    intro fuel p prev hs _ hf
    simp only [Seg_nil] at hs
    subst hs
    cases fuel with
    | zero => simp at hf
    | succ fuel => rfl
  | cons c cs ih =>
    intro fuel p prev hs hno hf
    obtain ⟨hp, nx, hc, hr⟩ := hs
    subst hp
    cases fuel with
    | zero => simp at hf
    | succ fuel =>
      simp only [List.length_cons, Nat.add_lt_add_iff_right] at hf
      have hm := hno c (List.mem_cons_self _ _)
      simp only [ll_delete_loop, hc, hcmp, hm, ↓reduceIte]
      exact ih fuel nx (some c.1) hr (fun d hd => hno d (List.mem_cons_of_mem _ hd)) hf

theorem tail_after_unlink (scanned post : List (Nat × α)) (a : Nat) (x : α)
    (hnd : ((scanned ++ (a, x) :: post).map Prod.fst).Nodup) :
    (if some a = (scanned ++ (a, x) :: post).getLast?.map Prod.fst
      then scanned.getLast?.map Prod.fst
      else (scanned ++ (a, x) :: post).getLast?.map Prod.fst)
      = (scanned ++ post).getLast?.map Prod.fst := by
  rcases List.eq_nil_or_concat post with rfl | ⟨q, e, rfl⟩
  · simp
  · rw [List.concat_eq_append] at hnd ⊢
    have hne : some a ≠ some e.1 := by
      intro he
      have he1 : a = e.1 := Option.some.inj he
      rw [List.map_append, List.nodup_append] at hnd
      have h2 := hnd.2.1
      rw [List.map_cons, List.nodup_cons] at h2
      apply h2.1
      show a ∈ List.map Prod.fst (q ++ [e])
      rw [he1]
      exact List.mem_map_of_mem _ (by simp)
    have e1 : scanned ++ (a, x) :: (q ++ [e]) = (scanned ++ (a, x) :: q) ++ [e] := by simp
    have e2 : scanned ++ (q ++ [e]) = (scanned ++ q) ++ [e] := by simp
    rw [e1, e2, List.getLast?_concat, List.getLast?_concat]
    simp only [Option.map_some']
    rw [if_neg hne]

theorem head_of_Seg {h : Heap α} {c : Nat × α} {cs : List (Nat × α)} {p q : Option Nat}
    (hs : Seg h p (c :: cs) q) : p = some c.1 := hs.1

theorem delete_loop_found (cmp : α → α → Int) (value : α) (h : Heap α) (l : ll_t α)
    (hcmp : l.comparator = some cmp) (a : Nat) (x : α) (post : List (Nat × α))
    (hx : cmp x value = 0) (fuel : Nat) (scanned : List (Nat × α)) (prev : Option Nat)
    (hs1 : Seg h l.head scanned (some a)) (hs2 : Seg h (some a) ((a, x) :: post) none)
    (hprev : prev = scanned.getLast?.map Prod.fst)
    (htail : l.tail = (scanned ++ (a, x) :: post).getLast?.map Prod.fst) :
    ∃ h1 l1, ll_delete_loop value (fuel + 1) h l (some a) prev = .ok (h1, l1, some a) ∧
      IsList (free h1 (some a)) l1 (scanned ++ post) ∧ l1.lock = l.lock ∧
      l1.comparator = l.comparator ∧ l1.print_val = l.print_val := by
  have hfull : Seg h l.head (scanned ++ (a, x) :: post) none :=
    (Seg_append _ _ _ _ _).2 ⟨_, hs1, hs2⟩
  have hnd := Seg_nodup hfull
  have htl := tail_after_unlink scanned post a x hnd
  rw [← htail, ← hprev] at htl
  obtain ⟨_, nx, hc, hpost⟩ := hs2
  simp only at hc
  have ha_scanned : ∀ d ∈ scanned, d.1 ≠ a := by
    intro d hd he
    rw [List.map_append, List.nodup_append] at hnd
    exact hnd.2.2 (List.mem_map_of_mem _ hd) (by simp [he])
  have ha_post : ∀ d ∈ post, d.1 ≠ a := by
    intro d hd he
    rw [List.map_append, List.nodup_append] at hnd
    have h2 := hnd.2.1
    rw [List.map_cons, List.nodup_cons] at h2
    apply h2.1
    show a ∈ List.map Prod.fst post
    rw [← he]
    exact List.mem_map_of_mem _ hd
  have hscan_post : ∀ d ∈ scanned, ∀ e ∈ post, d.1 ≠ e.1 := by
    intro d hd e he hde
    rw [List.map_append, List.nodup_append] at hnd
    exact hnd.2.2 (List.mem_map_of_mem _ hd)
      (by rw [hde]; exact List.mem_map_of_mem _ (List.mem_cons_of_mem _ he))
  rcases List.eq_nil_or_concat scanned with rfl | ⟨init, c, rfl⟩
  · -- the match is the head of the list
    have hhead : l.head = some a := by simpa using hs1
    have hprev0 : prev = none := by simpa using hprev
    subst hprev0
    simp only [ll_delete_loop, hc, hcmp, hx, ↓reduceIte, hhead]
    refine ⟨_, _, rfl, ⟨?_, ?_⟩, ?_, ?_, ?_⟩
    · split
      · exact Seg_frame hpost (fun d hd => by simp [free, Heap.set_other (ha_post d hd)])
      · exact Seg_frame hpost (fun d hd => by simp [free, Heap.set_other (ha_post d hd)])
    · rw [List.nil_append] at htl ⊢
      rw [← htl]
      split <;> rfl
    · split <;> rfl
    · split <;> rfl
    · split <;> rfl
  · -- the match has a predecessor
    rw [List.concat_eq_append] at hs1 hprev htail hfull htl ha_scanned hscan_post ⊢
    obtain ⟨m, hinit, hm, nxc, hcc, hnxc⟩ := (Seg_append _ _ _ _ _).1 hs1
    simp only [Seg_nil] at hnxc
    subst hnxc
    have hprev1 : prev = some c.1 := by rw [hprev]; simp
    subst hprev1
    have hca : c.1 ≠ a := ha_scanned c (by simp)
    have hhead : some a ≠ l.head := by
      intro he
      cases init with
      | nil =>
        simp only [Seg_nil] at hinit
        rw [hinit, hm] at he
        exact hca (Option.some.inj he).symm
      | cons d init =>
        rw [head_of_Seg hinit] at he
        exact ha_scanned d (by simp) (Option.some.inj he).symm
    have hnd_init : ∀ d ∈ init, d.1 ≠ c.1 := by
      intro d hd he
      have hn := Seg_nodup hfull
      rw [List.map_append, List.nodup_append] at hn
      have h1 := hn.1
      rw [List.map_append, List.nodup_append] at h1
      exact h1.2.2 (List.mem_map_of_mem _ hd) (by simp [he])
    simp only [ll_delete_loop, hc, hcmp, hx, ↓reduceIte, hhead, hcc]
    refine ⟨_, _, rfl, ⟨?_, ?_⟩, ?_, ?_, ?_⟩
    · have hseg : Seg (free (h.set c.1 (some { val := c.2, next := nx })) (some a)) l.head
          ((init ++ [c]) ++ post) none := by
        rw [List.append_assoc, Seg_append]
        refine ⟨m, Seg_frame hinit ?_, hm, nx, ?_, Seg_frame hpost ?_⟩
        · intro d hd
          simp [free, Heap.set_other (ha_scanned d (by simp [hd])),
            Heap.set_other (hnd_init d hd)]
        · simp [free, Heap.set_other hca]
        · intro d hd
          simp [free, Heap.set_other (ha_post d hd),
            Heap.set_other (hscan_post c (by simp) d hd).symm]
      split
      · exact hseg
      · exact hseg
    · rw [← htl]
      split <;> rfl
    · split <;> rfl
    · split <;> first | rfl | exact hcmp
    · split <;> rfl

theorem delete_loop_match (cmp : α → α → Int) (value : α) (h : Heap α) (l : ll_t α)
    (hcmp : l.comparator = some cmp) (a : Nat) (x : α) (post : List (Nat × α))
    (hx : cmp x value = 0) (pre : List (Nat × α)) :
    ∀ (fuel : Nat) (scanned : List (Nat × α)) (temp prev : Option Nat),
      Seg h l.head scanned temp → Seg h temp (pre ++ (a, x) :: post) none →
      prev = scanned.getLast?.map Prod.fst →
      l.tail = (scanned ++ (pre ++ (a, x) :: post)).getLast?.map Prod.fst →
      (∀ c ∈ pre, cmp c.2 value ≠ 0) → pre.length < fuel →
      ∃ h1 l1, ll_delete_loop value fuel h l temp prev = .ok (h1, l1, some a) ∧
        IsList (free h1 (some a)) l1 (scanned ++ (pre ++ post)) ∧ l1.lock = l.lock ∧
        l1.comparator = l.comparator ∧ l1.print_val = l.print_val := by
  induction pre with
  | nil =>
    intro fuel scanned temp prev hs1 hs2 hprev htail _ hf
    cases fuel with
    | zero => simp at hf
    | succ fuel =>
      have ht : temp = some a := head_of_Seg hs2
      subst ht
      exact delete_loop_found cmp value h l hcmp a x post hx fuel scanned prev hs1 hs2
        hprev htail
  | cons c pre ih =>
    intro fuel scanned temp prev hs1 hs2 hprev htail hno hf
    cases fuel with
    | zero => simp at hf
    | succ fuel =>
      simp only [List.length_cons, Nat.add_lt_add_iff_right] at hf
      obtain ⟨hp, nx, hc, hr⟩ := hs2
      subst hp
      have hm := hno c (List.mem_cons_self _ _)
      have hs1a : Seg h l.head (scanned ++ [c]) nx :=
        (Seg_append _ _ _ _ _).2 ⟨_, hs1, rfl, nx, hc, rfl⟩
      obtain ⟨h1, l1, he, hR, hrest⟩ :=
        ih fuel (scanned ++ [c]) nx (some c.1) hs1a hr (by simp)
          (by rw [htail]; simp) (fun d hd => hno d (List.mem_cons_of_mem _ hd)) hf
      refine ⟨h1, l1, ?_, by simpa using hR, hrest⟩
      simp only [ll_delete_loop, hc, hcmp, hm, ↓reduceIte]
      exact he

theorem delete_found {s : State α} {cmp : α → α → Int} {value : α} {fuel : Nat}
    {pre post : List (Nat × α)} {a : Nat} {x : α}
    (hM : Models s (pre ++ (a, x) :: post))
    (hcmp : ∀ l, s.list = some l → l.comparator = some cmp)
    (hno : ∀ c ∈ pre, cmp c.2 value ≠ 0) (hx : cmp x value = 0) (hf : pre.length < fuel) :
    ∃ s1, ll_delete fuel s value = .ok s1 ∧ Models s1 (pre ++ post) ∧ s1.heap a = none ∧
      (∀ l, s.list = some l → ∃ l1, s1.list = some l1 ∧
        l1.comparator = l.comparator ∧ l1.print_val = l.print_val) ∧
      s1.callback_validate = s.callback_validate := by
  obtain ⟨l, hl, hR, hlock, hh⟩ := Models_nonempty hM (by simp)
  have hv : ¬ validate_head (some l) = -1 := by rw [validate_head_some hh]; decide
  obtain ⟨h1, l1, he, hR1, hlk, hc1, hp1⟩ :=
    delete_loop_match cmp value s.heap ({ l with lock := true } : ll_t α) (hcmp l hl)
      a x post hx pre fuel [] l.head none rfl hR.1 rfl (by simpa using hR.2) hno hf
  simp only [ll_delete, hl, hv, ↓reduceIte, LL_LOCK, hlock, Bool.false_eq_true, he]
  refine ⟨_, rfl, ?_, ?_, ?_, rfl⟩
  · rw [Models_some rfl]
    refine ⟨⟨?_, ?_⟩, rfl⟩
    · simpa [LL_UNLOCK] using hR1.1
    · simpa [LL_UNLOCK] using hR1.2
  · simp [free]
  · intro l0 hl0
    cases hl0
    exact ⟨_, rfl, hc1, hp1⟩

theorem delete_absent {s : State α} {cs : List (Nat × α)} {cmp : α → α → Int} (value : α)
    {fuel : Nat} (hM : Models s cs)
    (hcmp : ∀ l, s.list = some l → l.comparator = some cmp)
    (hno : ∀ c ∈ cs, cmp c.2 value ≠ 0) (hf : cs.length < fuel) :
    ll_delete fuel s value = .ok s := by
  by_cases hv : validate_head s.list = -1
  · simp [ll_delete, hv]
  · cases hl : s.list with
    | none => rw [hl] at hv; exact absurd rfl hv
    | some l =>
      rw [Models_some hl] at hM
      obtain ⟨⟨hseg, _⟩, hlock⟩ := hM
      have he := delete_loop_nomatch cmp value s.heap ({ l with lock := true } : ll_t α)
        (hcmp l hl) cs fuel l.head none hseg hno hf
      rw [hl] at hv
      simp only [ll_delete, hl, hv, ↓reduceIte, LL_LOCK, hlock, Bool.false_eq_true, he, free,
        unlock_lock hlock]
      cases s
      simp only at hl
      simp [hl]

theorem first_match_split (P : Nat × α → Prop) [DecidablePred P] (cs : List (Nat × α))
    (hex : ¬ ∀ c ∈ cs, ¬ P c) :
    ∃ pre c post, cs = pre ++ c :: post ∧ P c ∧ ∀ d ∈ pre, ¬ P d := by
  induction cs with
  | nil => exact absurd (fun c hc => by cases hc) hex
  | cons c cs ih =>
    by_cases hc : P c
    · exact ⟨[], c, cs, rfl, hc, by simp⟩
    · have : ¬ ∀ d ∈ cs, ¬ P d := by
        intro hall
        apply hex
        intro d hd
        rcases List.mem_cons.1 hd with rfl | hd
        · exact hc
        · exact hall d hd
      obtain ⟨pre, d, post, he, hp, hn⟩ := ih this
      refine ⟨c :: pre, d, post, by rw [he]; rfl, hp, ?_⟩
      intro e he'
      rcases List.mem_cons.1 he' with rfl | he'
      · exact hc
      · exact hn e he'

/-! ## The sort on values: permutation, order, fixed point -/

theorem bubbleFrom_length (cmp : α → α → Int) (r : List α) :
    ∀ x, (bubbleFrom cmp x r).length = r.length + 1 := by
  induction r with
  | nil => intro x; rfl
  | cons y r ih =>
    intro x
    simp only [bubbleFrom]
    split <;> simp [ih]

theorem bubbleFrom_perm (cmp : α → α → Int) (r : List α) :
    ∀ x, (bubbleFrom cmp x r).Perm (x :: r) := by
  induction r with
  | nil => intro x; exact List.Perm.refl _
  | cons y r ih =>
    intro x
    simp only [bubbleFrom]
    split
    · exact ((ih x).cons y).trans (List.Perm.swap x y r)
    · exact (ih y).cons x

theorem dropLast_append_getLast (l : List α) : l.dropLast ++ l.getLast?.toList = l := by
  rcases List.eq_nil_or_concat l with rfl | ⟨q, e, rfl⟩
  · rfl
  · rw [List.concat_eq_append, List.dropLast_concat, List.getLast?_concat]
    rfl

theorem bubbleLoop_perm (cmp : α → α → Int) (n : Nat) :
    ∀ pre post, (bubbleLoop cmp n pre post).Perm (pre ++ post) := by
  induction n with
  | zero => intro pre post; exact List.Perm.refl _
  | succ n ih =>
    intro pre post
    cases pre with
    | nil => exact List.Perm.refl _
    | cons x r =>
      simp only [bubbleLoop]
      split
      · refine (ih _ _).trans ?_
        rw [← List.append_assoc, dropLast_append_getLast]
        exact (bubbleFrom_perm cmp r x).append_right post
      · exact (bubbleFrom_perm cmp r x).append_right post

theorem bubbleLoop_length (cmp : α → α → Int) (n : Nat) (pre post : List α) :
    (bubbleLoop cmp n pre post).length = pre.length + post.length := by
  rw [(bubbleLoop_perm cmp n pre post).length_eq, List.length_append]

theorem GreaterIsOne.not_one {cmp : α → α → Int} {le : α → α → Prop}
    (ho : GreaterIsOne cmp le) {a b : α} (h : ¬ cmp a b = 1) : le a b := by
  by_contra hn
  apply h
  rw [ho.2.2 a b]
  rcases ho.1 a b with hab | hba
  · exact absurd hab hn
  · exact ⟨hba, hn⟩

theorem GreaterIsOne.one {cmp : α → α → Int} {le : α → α → Prop}
    (ho : GreaterIsOne cmp le) {a b : α} (h : cmp a b = 1) : le b a :=
  ((ho.2.2 a b).1 h).1

theorem bubbleFrom_last {cmp : α → α → Int} {le : α → α → Prop}
    (ho : GreaterIsOne cmp le) (r : List α) :
    ∀ x, ∃ init m, bubbleFrom cmp x r = init ++ [m] ∧ le x m ∧ ∀ z ∈ init, le z m := by
  induction r with
  | nil =>
    intro x
    refine ⟨[], x, rfl, ?_, by simp⟩
    rcases ho.1 x x with h | h <;> exact h
  | cons y r ih =>
    intro x
    simp only [bubbleFrom]
    split
    · rename_i hc
      obtain ⟨init, m, he, hxm, hall⟩ := ih x
      refine ⟨y :: init, m, by rw [he]; rfl, hxm, ?_⟩
      intro z hz
      rcases List.mem_cons.1 hz with rfl | hz
      · exact ho.2.1 _ _ _ (ho.one hc) hxm
      · exact hall z hz
    · rename_i hc
      obtain ⟨init, m, he, hym, hall⟩ := ih y
      have hxy := ho.not_one hc
      refine ⟨x :: init, m, by rw [he]; rfl, ho.2.1 _ _ _ hxy hym, ?_⟩
      intro z hz
      rcases List.mem_cons.1 hz with rfl | hz
      · exact ho.2.1 _ _ _ hxy hym
      · exact hall z hz

theorem bubbleFrom_noswap (cmp : α → α → Int) (r : List α) :
    ∀ x, swappedFrom cmp x r = false → bubbleFrom cmp x r = x :: r := by
  induction r with
  | nil => intro x _; rfl
  | cons y r ih =>
    intro x hs
    simp only [swappedFrom] at hs
    simp only [bubbleFrom]
    split
    · rename_i hc
      simp [hc] at hs
    · rename_i hc
      simp only [hc, ↓reduceIte] at hs
      rw [ih y hs]

theorem sorted_of_noswap {cmp : α → α → Int} {le : α → α → Prop}
    (ho : GreaterIsOne cmp le) (r : List α) :
    ∀ x, swappedFrom cmp x r = false → (x :: r).Pairwise le := by
  induction r with
  | nil => intro x _; simp
  | cons y r ih =>
    intro x hs
    simp only [swappedFrom] at hs
    by_cases hc : cmp x y = 1
    · simp [hc] at hs
    · simp only [hc, ↓reduceIte] at hs
      have hyr := ih y hs
      have hxy := ho.not_one hc
      rw [List.pairwise_cons]
      refine ⟨?_, hyr⟩
      intro z hz
      rcases List.mem_cons.1 hz with rfl | hz
      · exact hxy
      · exact ho.2.1 _ _ _ hxy ((List.pairwise_cons.1 hyr).1 z hz)

theorem noswap_of_sorted {cmp : α → α → Int} {le : α → α → Prop}
    (ho : GreaterIsOne cmp le) (r : List α) :
    ∀ x, (x :: r).Pairwise le → swappedFrom cmp x r = false := by
  induction r with
  | nil => intro x _; rfl
  | cons y r ih =>
    intro x hp
    rw [List.pairwise_cons] at hp
    have hxy : le x y := hp.1 y (List.mem_cons_self _ _)
    have hc : ¬ cmp x y = 1 := fun h => ((ho.2.2 x y).1 h).2 hxy
    simp only [swappedFrom, hc, ↓reduceIte]
    exact ih y hp.2

theorem bubbleLoop_sorted {cmp : α → α → Int} {le : α → α → Prop}
    (ho : GreaterIsOne cmp le) (n : Nat) :
    ∀ pre post, pre.length ≤ n → post.Pairwise le → (∀ a ∈ pre, ∀ b ∈ post, le a b) →
      (bubbleLoop cmp n pre post).Pairwise le := by
  induction n with
  | zero =>
    intro pre post hlen hpost _
    have : pre = [] := List.length_eq_zero.1 (Nat.le_zero.1 hlen)
    subst this
    simpa [bubbleLoop] using hpost
  | succ n ih =>
    intro pre post hlen hpost hle
    cases pre with
    | nil => simpa [bubbleLoop] using hpost
    | cons x r =>
      simp only [List.length_cons, Nat.add_le_add_iff_right] at hlen
      simp only [bubbleLoop]
      split
      · obtain ⟨init, m, he, _, hall⟩ := bubbleFrom_last ho r x
        have hperm := bubbleFrom_perm cmp r x
        have hlenB := bubbleFrom_length cmp r x
        rw [he] at hperm hlenB
        rw [he, List.dropLast_concat, List.getLast?_concat]
        have hmem : ∀ z, z ∈ init ++ [m] → z ∈ x :: r := fun z hz => hperm.subset hz
        apply ih
        · simp only [List.length_append, List.length_singleton,
            Nat.add_right_cancel_iff] at hlenB
          omega
        · show (m :: post).Pairwise le
          rw [List.pairwise_cons]
          exact ⟨fun b hb => hle m (hmem m (by simp)) b hb, hpost⟩
        · intro a ha b hb
          rcases List.mem_cons.1 hb with rfl | hb
          · exact hall a ha
          · exact hle a (hmem a (by simp [ha])) b hb
      · rename_i hs
        have hs1 : swappedFrom cmp x r = false := by simpa using hs
        rw [bubbleFrom_noswap cmp r x hs1, List.pairwise_append]
        exact ⟨sorted_of_noswap ho r x hs1, hpost, hle⟩

/-! ## `ll_sort_list` on the heap -/

theorem swap_spec {h : Heap α} {p q : Nat} {v w : α} {np nq : Option Nat} (hpq : p ≠ q)
    (hp : h p = some ⟨v, np⟩) (hq : h q = some ⟨w, nq⟩) :
    swap h (some p) (some q)
      = .ok ((h.set p (some ⟨w, np⟩)).set q (some ⟨v, nq⟩)) := by
  have h1q : (h.set p (some ⟨w, np⟩)) q = some ⟨w, nq⟩ := by
    rw [Heap.set_other (Ne.symm hpq), hq]
  simp only [swap, hp, hq, h1q]

theorem fst_mem_of_mem_zip {as : List Nat} {vs : List α} {c : Nat × α}
    (hc : c ∈ as.zip vs) : c.1 ∈ as :=
  (List.of_mem_zip hc).1

theorem sort_inner_spec (cmp : α → α → Int) (ptr2 : Option Nat) (as : List Nat) :
    ∀ (fuel : Nat) (h : Heap α) (p : Nat) (v : α) (vs : List α) (sw : Bool),
      vs.length = as.length →
      Seg h (some p) ((p :: as).zip (v :: vs)) ptr2 →
      (p :: as).Nodup → (∀ a ∈ as, some a ≠ ptr2) → as.length < fuel →
      ∃ h1, ll_sort_inner (some cmp) ptr2 fuel h (some p) sw
          = .ok (h1, (p :: as).getLast?, sw || swappedFrom cmp v vs) ∧
        Seg h1 (some p) ((p :: as).zip (bubbleFrom cmp v vs)) ptr2 ∧
        (∀ b, b ∉ p :: as → h1 b = h b) ∧
        (swappedFrom cmp v vs = false → h1 = h) := by
  induction as with
  | nil =>
    intro fuel h p v vs sw hlen hs _ _ hf
    have hvs : vs = [] := List.length_eq_zero.1 hlen
    subst hvs
    cases fuel with
    | zero => simp at hf
    | succ fuel =>
      obtain ⟨_, nx, hc, hnx⟩ := hs
      have hnx1 : nx = ptr2 := hnx
      subst hnx1
      simp only at hc
      refine ⟨h, ?_, ⟨rfl, nx, hc, rfl⟩, fun _ _ => rfl, fun _ => rfl⟩
      simp [ll_sort_inner, hc, swappedFrom]
  | cons q as ih =>
    intro fuel h p v vs sw hlen hs hnd hne hf
    cases vs with
    | nil => simp at hlen
    | cons w vs =>
      cases fuel with
      | zero => simp at hf
      | succ fuel =>
        simp only [List.length_cons, Nat.add_right_cancel_iff] at hlen
        simp only [List.length_cons, Nat.add_lt_add_iff_right] at hf
        obtain ⟨_, nx, hc, hs1⟩ := hs
        have hs1' := hs1
        obtain ⟨hnx, nx2, hcq, hs2⟩ := hs1'
        simp only at hc hcq hnx
        subst hnx
        rw [List.nodup_cons] at hnd
        obtain ⟨hp_notin, hnd1⟩ := hnd
        have hnd1' := hnd1
        rw [List.nodup_cons] at hnd1'
        have hpq : p ≠ q := fun e => hp_notin (e ▸ List.mem_cons_self _ _)
        have hq2 : some q ≠ ptr2 := hne q (List.mem_cons_self _ _)
        have hne1 : ∀ a ∈ as, some a ≠ ptr2 := fun a ha => hne a (List.mem_cons_of_mem _ ha)
        by_cases hcmp : cmp v w = 1
        · -- out of order: the two values are exchanged
          have hsw := swap_spec hpq hc hcq
          have h2p : ((h.set p (some ⟨w, some q⟩)).set q (some ⟨v, nx2⟩)) p
              = some ⟨w, some q⟩ := by
            rw [Heap.set_other hpq]; simp
          have hseg2 : Seg ((h.set p (some ⟨w, some q⟩)).set q (some ⟨v, nx2⟩)) (some q)
              ((q :: as).zip (v :: vs)) ptr2 := by
            refine ⟨rfl, nx2, by simp, Seg_frame hs2 ?_⟩
            intro d hd
            have hda := fst_mem_of_mem_zip hd
            have hdq : d.1 ≠ q := fun e => hnd1'.1 (e ▸ hda)
            have hdp : d.1 ≠ p := fun e => hp_notin (e ▸ List.mem_cons_of_mem _ hda)
            rw [Heap.set_other hdq, Heap.set_other hdp]
          obtain ⟨h3, he, hseg3, hframe, _⟩ :=
            ih fuel _ q v vs true hlen hseg2 hnd1 hne1 hf
          refine ⟨h3, ?_, ?_, ?_, ?_⟩
          · simp only [ll_sort_inner, hc, hq2, ↓reduceIte, hcq, hcmp, hsw, h2p, he,
              swappedFrom, List.getLast?_cons_cons, Bool.true_or, Bool.or_true]
          · simp only [bubbleFrom, hcmp, ↓reduceIte]
            refine ⟨rfl, some q, ?_, hseg3⟩
            rw [hframe p hp_notin]
            exact h2p
          · intro b hb
            rw [List.mem_cons, not_or] at hb
            have hb2 := hb.2
            rw [List.mem_cons, not_or] at hb2
            rw [hframe b hb.2, Heap.set_other hb2.1, Heap.set_other hb.1]
          · intro hno
            simp [swappedFrom, hcmp] at hno
        · -- in order: nothing is written
          obtain ⟨h3, he, hseg3, hframe, hsame⟩ :=
            ih fuel h q w vs sw hlen hs1 hnd1 hne1 hf
          refine ⟨h3, ?_, ?_, ?_, ?_⟩
          · simp only [ll_sort_inner, hc, hq2, ↓reduceIte, hcq, hcmp, he,
              swappedFrom, List.getLast?_cons_cons]
          · simp only [bubbleFrom, hcmp, ↓reduceIte]
            refine ⟨rfl, some q, ?_, hseg3⟩
            rw [hframe p hp_notin]
            exact hc
          · intro b hb
            rw [List.mem_cons, not_or] at hb
            exact hframe b hb.2
          · intro hno
            simp only [swappedFrom, hcmp, ↓reduceIte] at hno
            exact hsame hno

theorem sort_pass_spec (cmp : α → α → Int) (l : ll_t α) (hcmp : l.comparator = some cmp)
    (fuel : Nat) (h : Heap α) (p : Nat) (as : List Nat) (v : α) (vs : List α)
    (postA : List Nat) (postV : List α)
    (hlen : vs.length = as.length) (hlenp : postV.length = postA.length)
    (hs : Seg h l.head ((p :: as ++ postA).zip (v :: vs ++ postV)) none)
    (hf : as.length < fuel) :
    ∃ h1, ll_sort_inner l.comparator postA.head? fuel h l.head false
        = .ok (h1, (p :: as).getLast?, swappedFrom cmp v vs) ∧
      Seg h1 l.head ((p :: as ++ postA).zip (bubbleFrom cmp v vs ++ postV)) none ∧
      (swappedFrom cmp v vs = false → h1 = h) := by
  have hlen1 : (p :: as).length = (v :: vs).length := by simp [hlen]
  have hnd := Seg_nodup hs
  rw [List.map_fst_zip _ _ (by simp [hlen, hlenp])] at hnd
  have hnd0 := hnd
  rw [List.zip_append hlen1, Seg_append] at hs
  obtain ⟨m, hpre, hpost⟩ := hs
  have hm : m = postA.head? := by
    cases postA with
    | nil =>
      have : postV = [] := List.length_eq_zero.1 hlenp
      subst this
      exact hpost
    | cons b postA =>
      cases postV with
      | nil => simp at hlenp
      | cons w postV => exact hpost.1
  subst hm
  have hhead : l.head = some p := hpre.1
  rw [List.nodup_append] at hnd
  have hne : ∀ a ∈ as, some a ≠ postA.head? := by
    intro a ha he
    cases postA with
    | nil => simp at he
    | cons b postA =>
      simp only [List.head?_cons, Option.some.injEq] at he
      exact hnd.2.2 (List.mem_cons_of_mem _ ha) (he ▸ List.mem_cons_self _ _)
  rw [hhead] at hpre
  obtain ⟨h1, he, hseg1, hframe, hsame⟩ :=
    sort_inner_spec cmp postA.head? as fuel h p v vs false hlen hpre hnd.1 hne hf
  refine ⟨h1, ?_, ?_, hsame⟩
  · rw [hcmp, hhead, he]
    simp
  · have hlen2 : (p :: as).length = (bubbleFrom cmp v vs).length := by
      rw [bubbleFrom_length]; simp [hlen]
    rw [List.zip_append hlen2, Seg_append, hhead]
    refine ⟨_, hseg1, Seg_frame hpost ?_⟩
    intro d hd
    apply hframe
    intro hmem
    exact hnd.2.2 hmem (fst_mem_of_mem_zip hd)

theorem sort_outer_spec (cmp : α → α → Int) (l : ll_t α) (hcmp : l.comparator = some cmp)
    (fuel : Nat) (k : Nat) :
    ∀ (passes : Nat) (h : Heap α) (p : Nat) (as : List Nat) (v : α) (vs : List α)
      (postA : List Nat) (postV : List α),
      as.length = k → vs.length = k → postV.length = postA.length →
      Seg h l.head ((p :: as ++ postA).zip (v :: vs ++ postV)) none →
      k < passes → k < fuel →
      ∃ h1, ll_sort_outer fuel l passes h postA.head? = .ok h1 ∧
        Seg h1 l.head ((p :: as ++ postA).zip (bubbleLoop cmp (k + 1) (v :: vs) postV)) none ∧
        (swappedFrom cmp v vs = false → h1 = h) := by
  induction k with
  | zero =>
    intro passes h p as v vs postA postV hla hlv hlenp hs hpass hf
    have has : as = [] := List.length_eq_zero.1 hla
    have hvs : vs = [] := List.length_eq_zero.1 hlv
    subst has hvs
    obtain ⟨h1, he, hseg1, hsame⟩ :=
      sort_pass_spec cmp l hcmp fuel h p [] v [] postA postV rfl hlenp hs hf
    cases passes with
    | zero => simp at hpass
    | succ passes =>
      refine ⟨h1, ?_, ?_, hsame⟩
      · simp only [ll_sort_outer, he, swappedFrom, Bool.false_eq_true, ↓reduceIte]
      · simpa [bubbleLoop, swappedFrom] using hseg1
  | succ k ih =>
    intro passes h p as v vs postA postV hla hlv hlenp hs hpass hf
    obtain ⟨h1, he, hseg1, hsame⟩ :=
      sort_pass_spec cmp l hcmp fuel h p as v vs postA postV (by rw [hla, hlv]) hlenp hs
        (by rw [hla]; exact hf)
    cases passes with
    | zero => simp at hpass
    | succ passes =>
      cases hsw : swappedFrom cmp v vs with
      | false =>
        refine ⟨h1, ?_, ?_, fun _ => hsame hsw⟩
        · simp only [ll_sort_outer, he, hsw, Bool.false_eq_true, ↓reduceIte]
        · simpa [bubbleLoop, hsw] using hseg1
      | true =>
        -- the boundary moves to the last node before it
        obtain ⟨initA, lastA, hA⟩ : ∃ initA lastA, p :: as = initA ++ [lastA] := by
          rcases List.eq_nil_or_concat (p :: as) with h0 | ⟨i, a, h0⟩
          · cases h0
          · exact ⟨i, a, by rw [h0, List.concat_eq_append]⟩
        obtain ⟨initV, lastV, hV⟩ :
            ∃ initV lastV, bubbleFrom cmp v vs = initV ++ [lastV] := by
          rcases List.eq_nil_or_concat (bubbleFrom cmp v vs) with h0 | ⟨i, a, h0⟩
          · have := bubbleFrom_length cmp vs v
            rw [h0] at this
            simp at this
          · exact ⟨i, a, by rw [h0, List.concat_eq_append]⟩
        have hlenA : initA.length = k + 1 := by
          have := congrArg List.length hA
          simp only [List.length_cons, List.length_append, List.length_nil] at this
          omega
        have hlenV : initV.length = k + 1 := by
          have := bubbleFrom_length cmp vs v
          rw [hV] at this
          simp only [List.length_cons, List.length_append, List.length_nil] at this
          omega
        cases initA with
        | nil => simp at hlenA
        | cons p1 as1 =>
          cases initV with
          | nil => simp at hlenV
          | cons v1 vs1 =>
            have hp1 : p1 = p := by
              have := congrArg List.head? hA
              simpa using this.symm
            subst hp1
            simp only [List.length_cons, Nat.add_right_cancel_iff] at hlenA hlenV
            have hseg2 : Seg h1 l.head
                ((p1 :: as1 ++ lastA :: postA).zip (v1 :: vs1 ++ lastV :: postV)) none := by
              have e1 : p1 :: as1 ++ lastA :: postA = (p1 :: as) ++ postA := by
                rw [hA]; simp
              have e2 : v1 :: vs1 ++ lastV :: postV = bubbleFrom cmp v vs ++ postV := by
                rw [hV]; simp
              rw [e1, e2]
              exact hseg1
            obtain ⟨h2, he2, hseg3, _⟩ :=
              ih passes h1 p1 as1 v1 vs1 (lastA :: postA) (lastV :: postV) hlenA hlenV
                (by simp [hlenp]) hseg2 (by omega) (by omega)
            refine ⟨h2, ?_, ?_, fun hno => by simp at hno⟩
            · have hlast : (p1 :: as).getLast? = some lastA := by
                rw [hA, List.getLast?_concat]
              simp only [ll_sort_outer, he, hsw, ↓reduceIte, hlast]
              simpa using he2
            · have e1 : p1 :: as ++ postA = p1 :: as1 ++ lastA :: postA := by
                rw [hA]; simp
              have e3 : bubbleLoop cmp (k + 1 + 1) (v :: vs) postV
                  = bubbleLoop cmp (k + 1) (v1 :: vs1) (lastV :: postV) := by
                simp only [bubbleLoop, hsw, ↓reduceIte, hV, List.dropLast_concat,
                  List.getLast?_concat]
                rfl
              rw [e1, e3]
              exact hseg3

theorem zip_map_fst_snd (cs : List (Nat × α)) :
    (cs.map Prod.fst).zip (cs.map Prod.snd) = cs := by
  induction cs with
  | nil => rfl
  | cons c cs ih => simp [ih]

theorem State.heap_list_eta {s : State α} {l : ll_t α} (h1 : Heap α) (hl : s.list = some l) :
    ({ s with heap := h1, list := some l } : State α) = { s with heap := h1 } := by
  cases s
  simp only at hl
  simp [hl]

theorem sort_models {s : State α} {cs : List (Nat × α)} {cmp : α → α → Int} {fuel : Nat}
    (hM : Models s cs) (hcmp : ∀ l, s.list = some l → l.comparator = some cmp)
    (hf : cs.length ≤ fuel) :
    ∃ s1 cs1, ll_sort_list fuel s = .ok s1 ∧ Models s1 cs1 ∧
      cs1.map Prod.fst = cs.map Prod.fst ∧
      cs1.map Prod.snd = bubbleLoop cmp cs.length (cs.map Prod.snd) [] ∧
      s1.list = s.list ∧ s1.callback_validate = s.callback_validate ∧
      (∀ v vs, cs.map Prod.snd = v :: vs → swappedFrom cmp v vs = false → s1 = s) ∧
      (cs = [] → s1 = s) := by
  by_cases hv : validate_head s.list = -1
  · have := Models_guard hM hv
    subst this
    refine ⟨s, [], by simp [ll_sort_list, hv], hM, rfl, ?_, rfl, rfl, fun _ _ _ _ => rfl,
      fun _ => rfl⟩
    simp [bubbleLoop]
  · cases hl : s.list with
    | none => rw [hl] at hv; exact absurd rfl hv
    | some l =>
      rw [Models_some hl] at hM
      obtain ⟨⟨hseg, htail⟩, hlock⟩ := hM
      cases cs with
      | nil =>
        exfalso
        apply hv
        rw [hl]
        exact validate_head_empty (by simpa using hseg)
      | cons c cs =>
        have hseg0 : Seg s.heap ({ l with lock := true } : ll_t α).head
            ((c.1 :: cs.map Prod.fst ++ []).zip (c.2 :: cs.map Prod.snd ++ [])) none := by
          have := zip_map_fst_snd (c :: cs)
          simp only [List.map_cons] at this
          simp only [List.append_nil]
          rw [this]
          exact hseg
        obtain ⟨h1, he, hseg1, hsame⟩ :=
          sort_outer_spec cmp ({ l with lock := true } : ll_t α) (hcmp l hl) fuel cs.length
            fuel s.heap c.1 (cs.map Prod.fst) c.2 (cs.map Prod.snd) [] []
            (by simp) (by simp) rfl hseg0 hf hf
        have hlenB : (bubbleLoop cmp (cs.length + 1) (c.2 :: cs.map Prod.snd) []).length
            = cs.length + 1 := by
          rw [bubbleLoop_length]; simp
        have hfst : ((c.1 :: cs.map Prod.fst).zip
            (bubbleLoop cmp (cs.length + 1) (c.2 :: cs.map Prod.snd) [])).map Prod.fst
            = c.1 :: cs.map Prod.fst := by
          rw [List.map_fst_zip]
          rw [hlenB]; simp
        have hsnd : ((c.1 :: cs.map Prod.fst).zip
            (bubbleLoop cmp (cs.length + 1) (c.2 :: cs.map Prod.snd) [])).map Prod.snd
            = bubbleLoop cmp (cs.length + 1) (c.2 :: cs.map Prod.snd) [] := by
          rw [List.map_snd_zip]
          rw [hlenB]; simp
        rw [hl] at hv
        simp only [List.append_nil] at hseg1
        refine ⟨{ s with heap := h1 }, _, ?_, ?_, hfst, hsnd, hl, rfl, ?_, ?_⟩
        · simp only [ll_sort_list, hl, hv, ↓reduceIte, LL_LOCK, hlock, Bool.false_eq_true]
          simp only [List.head?_nil] at he
          rw [he]
          simp only [unlock_lock hlock, State.heap_list_eta h1 hl]
        · rw [Models_some (show ({ s with heap := h1 } : State α).list = some l from hl)]
          refine ⟨⟨hseg1, ?_⟩, hlock⟩
          rw [htail, ← List.getLast?_map, ← List.getLast?_map, hfst]
          rfl
        · intro v vs hvs hno
          simp only [List.map_cons, List.cons.injEq] at hvs
          obtain ⟨h1v, h2v⟩ := hvs
          subst h1v h2v
          rw [hsame hno]
        · intro h0; cases h0

/-! ## A concrete list used to instantiate the results -/

theorem demo_isList : IsList demo_heap demo_list demo_cells :=
  ⟨⟨rfl, some 11, rfl, rfl, some 12, rfl, rfl, none, rfl, rfl⟩, rfl⟩

theorem demo_isList_always_one :
    IsList demo_heap { demo_list with comparator := some (fun _ _ => 1) } demo_cells :=
  ⟨⟨rfl, some 11, rfl, rfl, some 12, rfl, rfl, none, rfl, rfl⟩, rfl⟩

theorem demo_isList_never_one :
    IsList demo_heap { demo_list with comparator := some less_or_zero } demo_cells :=
  ⟨⟨rfl, some 11, rfl, rfl, some 12, rfl, rfl, none, rfl, rfl⟩, rfl⟩

theorem demo_models : Models demo_state demo_cells :=
  ⟨demo_isList, rfl⟩

theorem demo_comparator (l : ll_t Int) (hl : demo_state.list = some l) :
    l.comparator = some int_compare := by
  cases hl
  rfl

theorem demo_order : GreaterIsOne int_compare (fun a b : Int => a ≤ b) := by
  refine ⟨fun a b => Int.le_total a b, fun a b c hab hbc => Int.le_trans hab hbc, ?_⟩
  intro a b
  unfold int_compare
  constructor
  · intro h
    split at h
    · omega
    · split at h
      · omega
      · constructor <;> omega
  · rintro ⟨h1, h2⟩
    have h3 : ¬ a < b := by omega
    have h4 : ¬ a = b := by omega
    simp [h3, h4]

/-! ## The claims -/

/-- C1: on a list owning the chain `cs`, with the lock free, a node address `a` that
`malloc` may return (not live) and a value the validation hook does not reject (no hook,
or the hook answers 0), `ll_add_end` returns with the chain `cs ++ [(a, value)]`: the
value is the new last element and the values before it are unchanged. Consequently `N`
such appends to a list fresh from `ll_create` give a list whose chain is the appended
cells in append order, with element count `N`. -/
theorem add_end_appends (s : State α) (l : ll_t α) (cs : List (Nat × α)) (a : Nat)
    (value : α) (hl : s.list = some l) (hlock : l.lock = false)
    (hR : IsList s.heap l cs) (hfresh : s.heap a = none)
    (hval : ∀ f, s.callback_validate = some f → f value = 0) :
    (∃ s1 l1, ll_add_end (some a) s value = .ok s1 ∧ s1.list = some l1 ∧
        IsList s1.heap l1 (cs ++ [(a, value)]) ∧
        (cs ++ [(a, value)]).map Prod.snd = cs.map Prod.snd ++ [value] ∧
        Invariant s1.heap l1 (cs.length + 1)) ∧
    (∀ (h0 : Heap α) (cb : Option (α → Int)) (pv : Option (α → String))
        (cmp : Option (α → α → Int)) (xs : List (Nat × α)),
        (xs.map Prod.fst).Nodup → (∀ x ∈ xs, h0 x.1 = none) →
        (∀ f, cb = some f → ∀ x ∈ xs, f x.2 = 0) →
        ∃ l0 s1 l1, ll_create true true pv cmp = .ok (some l0) ∧
          add_end_seq ⟨h0, some l0, cb⟩ xs = .ok s1 ∧ s1.list = some l1 ∧
          IsList s1.heap l1 xs ∧ Invariant s1.heap l1 xs.length) := by
  constructor
  · obtain ⟨s1, l1, he, hl1, hR1, _⟩ := add_end_spec hl hlock hR hfresh (validate_accepts hval)
    refine ⟨s1, l1, he, hl1, hR1, by simp, ?_⟩
    have := Invariant_of_IsList hR1
    simpa using this
  · intro h0 cb pv cmp xs hnd hfree hacc
    obtain ⟨s1, l1, he, hl1, hR1, _⟩ :=
      add_end_seq_spec xs ⟨h0, some ⟨none, none, cmp, pv, false⟩, cb⟩
        ⟨none, none, cmp, pv, false⟩ [] rfl rfl ⟨rfl, rfl⟩ hnd hfree
        (fun x hx => validate_accepts (fun f hf => hacc f hf x hx))
    rw [List.nil_append] at hR1
    exact ⟨_, s1, l1, rfl, he, hl1, hR1, Invariant_of_IsList hR1⟩

/-- Instance of C1: appending 7 at the fresh address 13 to the list 5, 3, 9. -/
theorem add_end_appends_witness :
    ∃ s1 l1, ll_add_end (some 13) demo_state 7 = .ok s1 ∧ s1.list = some l1 ∧
      IsList s1.heap l1 (demo_cells ++ [(13, 7)]) ∧
      (demo_cells ++ [(13, (7 : Int))]).map Prod.snd = demo_cells.map Prod.snd ++ [7] ∧
      Invariant s1.heap l1 (demo_cells.length + 1) :=
  (add_end_appends demo_state demo_list demo_cells 13 7 rfl rfl demo_isList rfl
    (fun f hf => by cases hf)).1

/-- C2: if the validation hook is set and answers non-zero for the value, `ll_add_end`
returns the state it was given: heap, header (head, tail) and hook are all unchanged,
whatever `malloc` would have returned. -/
theorem add_end_rejected_unchanged (s : State α) (l : ll_t α) (m : Option Nat) (value : α)
    (f : α → Int) (hl : s.list = some l) (hlock : l.lock = false)
    (hcb : s.callback_validate = some f) (hrej : f value ≠ 0) :
    ll_add_end m s value = .ok s := by
  apply add_end_rejected m hl hlock
  simp [validation_rejects, hcb, hrej]

/-- Instance of C2: the hook `reject_negative` refuses -4. -/
theorem add_end_rejected_unchanged_witness :
    ll_add_end (some 13) demo_state_validated (-4) = .ok demo_state_validated :=
  add_end_rejected_unchanged demo_state_validated demo_list (some 13) (-4) reject_negative
    rfl rfl rfl (by decide)

/-- C3: on a handle that is `NULL` or owns the chain `cs`, with enough loop budget,
`ll_search_node` returns the state unchanged together with a pointer `r` such that:
`r` is `NULL` exactly when no value of the chain compares equal (result 0) to `value`;
a non-`NULL` `r` is the address of the first cell, in head-to-tail order, whose value
compares equal; and `r` is `NULL` for a `NULL` handle or an empty list. -/
theorem search_first_match (s : State α) (cs : List (Nat × α)) (cmp : α → α → Int)
    (value : α) (fuel : Nat) (hM : Models s cs)
    (hcmp : ∀ l, s.list = some l → l.comparator = some cmp) (hf : cs.length < fuel) :
    ∃ r, ll_search_node fuel s value = .ok (s, r) ∧
      (r = none ↔ ∀ c ∈ cs, cmp c.2 value ≠ 0) ∧
      (∀ a, r = some a → ∃ pre x post, cs = pre ++ (a, x) :: post ∧ cmp x value = 0 ∧
        ∀ c ∈ pre, cmp c.2 value ≠ 0) ∧
      ((s.list = none ∨ ∃ l, s.list = some l ∧ l.head = none) → r = none) := by
  refine ⟨_, search_spec value hM hcmp hf, ?_, ?_, ?_⟩
  · rw [find_none_iff]
    simp
  · intro a ha
    obtain ⟨pre, x, post, he, hp, hn⟩ := find_some_split _ cs a ha
    refine ⟨pre, x, post, he, by simpa using hp, ?_⟩
    intro c hc
    simpa using hn c hc
  · intro h0
    have hnil : cs = [] := by
      apply Models_guard hM
      rcases h0 with h0 | ⟨l, h0, hh⟩
      · rw [h0]; rfl
      · rw [h0]; exact validate_head_empty hh
    subst hnil
    rfl

/-- Instance of C3: searching 3 in the list 5, 3, 9. -/
theorem search_first_match_witness :
    ∃ r, ll_search_node 4 demo_state 3 = .ok (demo_state, r) ∧
      (r = none ↔ ∀ c ∈ demo_cells, int_compare c.2 3 ≠ 0) ∧
      (∀ a, r = some a → ∃ pre x post, demo_cells = pre ++ (a, x) :: post ∧
        int_compare x 3 = 0 ∧ ∀ c ∈ pre, int_compare c.2 3 ≠ 0) ∧
      ((demo_state.list = none ∨ ∃ l, demo_state.list = some l ∧ l.head = none) →
        r = none) :=
  search_first_match demo_state demo_cells int_compare 3 4 demo_models demo_comparator
    (by decide)

/-- C4: on a handle that is `NULL` or owns the chain `cs`, with enough loop budget,
`ll_delete` returns, and: if `cs = pre ++ (a, x) :: post` where `x` is the first value
that compares equal (result 0) to `value`, the list afterwards owns exactly
`pre ++ post` (one element fewer, the others in their order) and the node `a` is freed;
if no value compares equal, or the handle is `NULL`, or the list is empty, the state is
returned unchanged. -/
theorem delete_first_match (s : State α) (cs : List (Nat × α)) (cmp : α → α → Int)
    (value : α) (fuel : Nat) (hM : Models s cs)
    (hcmp : ∀ l, s.list = some l → l.comparator = some cmp) (hf : cs.length < fuel) :
    ∃ s1, ll_delete fuel s value = .ok s1 ∧
      (∀ pre a x post, cs = pre ++ (a, x) :: post → (∀ c ∈ pre, cmp c.2 value ≠ 0) →
        cmp x value = 0 →
        Models s1 (pre ++ post) ∧ (pre ++ post).length + 1 = cs.length ∧
          s1.heap a = none) ∧
      ((∀ c ∈ cs, cmp c.2 value ≠ 0) → s1 = s) ∧
      ((s.list = none ∨ ∃ l, s.list = some l ∧ l.head = none) → s1 = s) := by
  have hex : ∃ s1, ll_delete fuel s value = .ok s1 := by
    by_cases hno : ∀ c ∈ cs, ¬ cmp c.2 value = 0
    · exact ⟨s, delete_absent value hM hcmp hno hf⟩
    · obtain ⟨pre, c, post, he, hp, hn⟩ :=
        first_match_split (fun c : Nat × α => cmp c.2 value = 0) cs hno
      subst he
      have hpre : pre.length < fuel := by
        rw [List.length_append] at hf
        omega
      obtain ⟨s1, h1, _⟩ := delete_found (a := c.1) (x := c.2) hM hcmp hn hp hpre
      exact ⟨s1, h1⟩
  obtain ⟨s1, he⟩ := hex
  refine ⟨s1, he, ?_, ?_, ?_⟩
  · intro pre a x post hcs hn hx
    subst hcs
    have hpre : pre.length < fuel := by
      rw [List.length_append] at hf
      omega
    obtain ⟨s2, h2, hM2, hfree, _⟩ := delete_found hM hcmp hn hx hpre
    rw [he] at h2
    cases h2
    exact ⟨hM2, by simp only [List.length_append, List.length_cons]; omega, hfree⟩
  · intro hno
    have h2 := delete_absent value hM hcmp hno hf
    rw [he] at h2
    cases h2
    rfl
  · intro h0
    have hnil : cs = [] := by
      apply Models_guard hM
      rcases h0 with h0 | ⟨l, h0, hh⟩
      · rw [h0]; rfl
      · rw [h0]; exact validate_head_empty hh
    subst hnil
    have h2 := delete_absent value hM hcmp (by simp) hf
    rw [he] at h2
    cases h2
    rfl

/-- Instance of C4: deleting 3 from the list 5, 3, 9. -/
theorem delete_first_match_witness :
    ∃ s1, ll_delete 4 demo_state 3 = .ok s1 ∧
      (∀ pre a x post, demo_cells = pre ++ (a, x) :: post →
        (∀ c ∈ pre, int_compare c.2 3 ≠ 0) → int_compare x 3 = 0 →
        Models s1 (pre ++ post) ∧ (pre ++ post).length + 1 = demo_cells.length ∧
          s1.heap a = none) ∧
      ((∀ c ∈ demo_cells, int_compare c.2 3 ≠ 0) → s1 = demo_state) ∧
      ((demo_state.list = none ∨ ∃ l, demo_state.list = some l ∧ l.head = none) →
        s1 = demo_state) :=
  delete_first_match demo_state demo_cells int_compare 3 4 demo_models demo_comparator
    (by decide)

/-- C5: on a non-empty list owning the chain `cs`, with a comparator that answers 1
exactly when its first argument is strictly greater than its second for a total
preorder `le`, and with enough loop budget, `ll_sort_list` returns and the values of the
list afterwards are in non-decreasing order from head to tail. -/
theorem sort_ascending (s : State α) (cs : List (Nat × α)) (cmp : α → α → Int)
    (le : α → α → Prop) (fuel : Nat) (hM : Models s cs) (hne : cs ≠ [])
    (hcmp : ∀ l, s.list = some l → l.comparator = some cmp) (ho : GreaterIsOne cmp le)
    (hf : cs.length ≤ fuel) :
    ∃ s1 cs1, ll_sort_list fuel s = .ok s1 ∧ Models s1 cs1 ∧ cs1 ≠ [] ∧
      (cs1.map Prod.snd).Pairwise le := by
  obtain ⟨s1, cs1, he, hM1, hfst, hsnd, _⟩ := sort_models hM hcmp hf
  refine ⟨s1, cs1, he, hM1, ?_, ?_⟩
  · intro h0
    rw [h0] at hfst
    exact hne (List.map_eq_nil_iff.1 hfst.symm)
  · rw [hsnd]
    exact bubbleLoop_sorted ho cs.length (cs.map Prod.snd) [] (by simp) List.Pairwise.nil
      (by simp)

/-- Instance of C5: sorting the list 5, 3, 9 with the three-way integer comparison. -/
theorem sort_ascending_witness :
    ∃ s1 cs1, ll_sort_list 3 demo_state = .ok s1 ∧ Models s1 cs1 ∧ cs1 ≠ [] ∧
      (cs1.map Prod.snd).Pairwise (fun a b : Int => a ≤ b) :=
  sort_ascending demo_state demo_cells int_compare (fun a b : Int => a ≤ b) 3 demo_models
    (by decide) demo_comparator demo_order (by decide)

/-- C6: on a handle that is `NULL` or owns the chain `cs`, for any comparator whatever
and with enough loop budget, `ll_sort_list` returns and the list afterwards owns the same
nodes in the same order, holding a permutation of the values it held before (same
length, no value lost or duplicated). -/
theorem sort_permutation (s : State α) (cs : List (Nat × α)) (cmp : α → α → Int)
    (fuel : Nat) (hM : Models s cs)
    (hcmp : ∀ l, s.list = some l → l.comparator = some cmp) (hf : cs.length ≤ fuel) :
    ∃ s1 cs1, ll_sort_list fuel s = .ok s1 ∧ Models s1 cs1 ∧
      (cs1.map Prod.snd).Perm (cs.map Prod.snd) ∧ cs1.length = cs.length ∧
      cs1.map Prod.fst = cs.map Prod.fst := by
  obtain ⟨s1, cs1, he, hM1, hfst, hsnd, _⟩ := sort_models hM hcmp hf
  refine ⟨s1, cs1, he, hM1, ?_, ?_, hfst⟩
  · rw [hsnd]
    simpa using bubbleLoop_perm cmp cs.length (cs.map Prod.snd) []
  · have := congrArg List.length hfst
    simpa using this

/-- Instance of C6: sorting the list 5, 3, 9 with a comparator that always answers 1. -/
theorem sort_permutation_witness :
    ∃ s1 cs1, ll_sort_list 3 demo_state_always_one = .ok s1 ∧ Models s1 cs1 ∧
      (cs1.map Prod.snd).Perm (demo_cells.map Prod.snd) ∧ cs1.length = demo_cells.length ∧
      cs1.map Prod.fst = demo_cells.map Prod.fst :=
  sort_permutation demo_state_always_one demo_cells (fun _ _ => 1) 3
    ⟨demo_isList_always_one, rfl⟩ (fun l hl => by cases hl; rfl) (by decide)

/-- C7: with a comparator that answers 1 exactly on strictly greater first arguments for
a total preorder `le`, sorting a list whose values are already in non-decreasing order
returns the state unchanged, and its first pass ends with `swapped` unset on an untouched
heap; and for any list, sorting the sorted list again returns it unchanged. -/
theorem sort_idempotent (s : State α) (cs : List (Nat × α)) (cmp : α → α → Int)
    (le : α → α → Prop) (fuel : Nat) (hM : Models s cs)
    (hcmp : ∀ l, s.list = some l → l.comparator = some cmp) (ho : GreaterIsOne cmp le)
    (hf : cs.length ≤ fuel) :
    ((cs.map Prod.snd).Pairwise le →
      ll_sort_list fuel s = .ok s ∧
      (∀ l, s.list = some l → cs ≠ [] →
        ∃ ptr1, ll_sort_inner l.comparator none fuel s.heap l.head false
          = .ok (s.heap, ptr1, false))) ∧
    (∃ s1, ll_sort_list fuel s = .ok s1 ∧ ll_sort_list fuel s1 = .ok s1) := by
  have hfix : ∀ (t : State α) (ct : List (Nat × α)), Models t ct →
      (∀ l, t.list = some l → l.comparator = some cmp) → ct.length ≤ fuel →
      (ct.map Prod.snd).Pairwise le → ll_sort_list fuel t = .ok t := by
    intro t ct hMt hcmpt hft hsorted
    obtain ⟨t1, ct1, he, _, _, _, _, _, hsame, hnil⟩ := sort_models hMt hcmpt hft
    cases hct : ct.map Prod.snd with
    | nil =>
      rw [hnil (List.map_eq_nil_iff.1 hct)] at he
      exact he
    | cons v vs =>
      rw [hct] at hsorted
      rw [hsame v vs hct (noswap_of_sorted ho vs v hsorted)] at he
      exact he
  constructor
  · intro hsorted
    refine ⟨hfix s cs hM hcmp hf hsorted, ?_⟩
    intro l hl hne
    rw [Models_some hl] at hM
    cases cs with
    | nil => exact absurd rfl hne
    | cons c cs =>
      have hseg0 : Seg s.heap l.head
          ((c.1 :: cs.map Prod.fst ++ []).zip (c.2 :: cs.map Prod.snd ++ [])) none := by
        have := zip_map_fst_snd (c :: cs)
        simp only [List.map_cons] at this
        simp only [List.append_nil]
        rw [this]
        exact hM.1.1
      obtain ⟨h1, he, _, hsame⟩ :=
        sort_pass_spec cmp l (hcmp l hl) fuel s.heap c.1 (cs.map Prod.fst) c.2
          (cs.map Prod.snd) [] [] (by simp) rfl hseg0 (by simpa using hf)
      have hno := noswap_of_sorted ho (cs.map Prod.snd) c.2 (by simpa using hsorted)
      rw [hno, hsame hno] at he
      exact ⟨_, he⟩
  · obtain ⟨s1, cs1, he, hM1, hfst, hsnd, hlist, _⟩ := sort_models hM hcmp hf
    refine ⟨s1, he, hfix s1 cs1 hM1 (fun l hl => hcmp l (hlist ▸ hl)) ?_ ?_⟩
    · have := congrArg List.length hfst
      simp only [List.length_map] at this
      rw [this]
      exact hf
    · rw [hsnd]
      exact bubbleLoop_sorted ho cs.length (cs.map Prod.snd) [] (by simp)
        List.Pairwise.nil (by simp)

/-- Instance of C7: the list 5, 3, 9 with the three-way integer comparison. -/
theorem sort_idempotent_witness :
    ((demo_cells.map Prod.snd).Pairwise (fun a b : Int => a ≤ b) →
      ll_sort_list 3 demo_state = .ok demo_state ∧
      (∀ l, demo_state.list = some l → demo_cells ≠ [] →
        ∃ ptr1, ll_sort_inner l.comparator none 3 demo_state.heap l.head false
          = .ok (demo_state.heap, ptr1, false))) ∧
    (∃ s1, ll_sort_list 3 demo_state = .ok s1 ∧ ll_sort_list 3 s1 = .ok s1) :=
  sort_idempotent demo_state demo_cells int_compare (fun a b : Int => a ≤ b) 3 demo_models
    demo_comparator demo_order (by decide)

theorem validate_head_of_empty {s : State α} (hM : Models s []) :
    validate_head s.list = -1 := by
  cases hl : s.list with
  | none => rfl
  | some l =>
    rw [Models_some hl] at hM
    exact validate_head_empty (by simpa using hM.1.1)

theorem add_end_invariant {s : State α} {l : ll_t α} {cs : List (Nat × α)}
    (hl : s.list = some l) (hlock : l.lock = false) (hR : IsList s.heap l cs)
    (m : Option Nat) (value : α) (hfresh : ∀ a, m = some a → s.heap a = none) :
    ∃ s1 l1 cs1, ll_add_end m s value = .ok s1 ∧ s1.list = some l1 ∧
      IsList s1.heap l1 cs1 := by
  cases hv : validation_rejects s.callback_validate value with
  | true => exact ⟨s, l, cs, add_end_rejected m hl hlock hv, hl, hR⟩
  | false =>
    cases m with
    | none => exact ⟨s, l, cs, add_end_no_memory hl hlock, hl, hR⟩
    | some a =>
      obtain ⟨s1, l1, he, hl1, hR1, _⟩ := add_end_spec hl hlock hR (hfresh a rfl) hv
      exact ⟨s1, l1, _, he, hl1, hR1⟩

theorem steps_none (h : Heap α) (k : Nat) : steps h k none = none := by
  cases k <;> rfl

theorem one_cell_not_as_stated {h : Heap α} {l : ll_t α} {a : Nat} {v : α}
    (hR : IsList h l [(a, v)]) : ∀ n, ¬ InvariantAsStated h l n := by
  obtain ⟨⟨hhead, nx, hnode, hnx⟩, htail⟩ := hR
  simp only [Seg_nil] at hnx
  subst hnx
  have ht : l.tail = some a := htail
  intro n hI
  obtain ⟨h1, _, h3, _⟩ := hI
  cases n with
  | zero =>
    have := h1.2 rfl
    rw [hhead] at this
    cases this
  | succ k =>
    rw [hhead, ht] at h3
    simp only [steps, hnode, steps_none] at h3
    cases h3

/-- C9, as stated, fails: the list `ll_create` returns satisfies the invariant read with
"tail is reached after exactly element-count steps", with element count 0, but after one
`ll_add_end` on it, which leaves the one-element chain 5 at the address 10, the list
satisfies that invariant for no element count: one step of `next` from the head is
already `NULL`, and no step at all would need the count 0 of an empty list. -/
theorem invariant_as_stated_not_preserved :
    ∃ l0 s1 l1, ll_create true true none (some int_compare) = .ok (some l0) ∧
      InvariantAsStated (fun _ => none) l0 0 ∧
      ll_add_end (some 10) ⟨fun _ => none, some l0, none⟩ 5 = .ok s1 ∧
      s1.list = some l1 ∧ IsList s1.heap l1 [(10, 5)] ∧
      ∀ n, ¬ InvariantAsStated s1.heap l1 n := by
  obtain ⟨s1, l1, he, hl1, hR1, _⟩ :=
    add_end_spec (s := ⟨fun _ => none, some ⟨none, none, some int_compare, none, false⟩, none⟩)
      (l := ⟨none, none, some int_compare, none, false⟩) (a := 10)
      rfl rfl (show IsList (fun _ => none) _ ([] : List (Nat × Int)) from ⟨rfl, rfl⟩) rfl
      (show validation_rejects (none : Option (Int → Int)) 5 = false from rfl)
  rw [List.nil_append] at hR1
  refine ⟨_, s1, l1, rfl, ?_, he, hl1, hR1, one_cell_not_as_stated hR1⟩
  refine ⟨by simp, by simp, rfl, ?_⟩
  intro t ht
  cases ht

/-- C9, amended: the structural invariant with the count of steps put right (head is
`NULL` iff the list is empty, tail is `NULL` iff the list is empty, `next` leads from
head to tail in element-count minus one steps and to `NULL` in element-count steps, the
`next` of tail is `NULL`) holds with element count 0 for every list `ll_create` returns,
and from an unlocked list satisfying it each of `ll_add_end` (whatever the hook answers
and whether or not `malloc` succeeds, on a fresh address), `ll_delete`,
`ll_search_node`, `ll_sort_list`, `ll_flush_list` and `ll_print_list` returns, with
enough loop budget, a state whose list satisfies it again. -/
theorem invariant_preserved (s : State α) (l : ll_t α) (n : Nat) (hl : s.list = some l)
    (hlock : l.lock = false) (hI : Invariant s.heap l n) :
    (∀ (mallocOk mutexOk : Bool) (pv : Option (α → String)) (cmp : Option (α → α → Int))
        (l0 : ll_t α), ll_create mallocOk mutexOk pv cmp = .ok (some l0) →
        ∀ h0 : Heap α, Invariant h0 l0 0) ∧
    (∀ (pv : Option (α → String)) (cmp : Option (α → α → Int)),
        ∃ l0 : ll_t α, ll_create true true pv cmp = .ok (some l0)) ∧
    (∀ (m : Option Nat) (value : α), (∀ a, m = some a → s.heap a = none) →
        ∃ s1 l1 n1, ll_add_end m s value = .ok s1 ∧ s1.list = some l1 ∧
          Invariant s1.heap l1 n1) ∧
    (∀ (fuel : Nat) (value : α) (cmp : α → α → Int), l.comparator = some cmp → n < fuel →
        ∃ s1 l1 n1, ll_delete fuel s value = .ok s1 ∧ s1.list = some l1 ∧
          Invariant s1.heap l1 n1) ∧
    (∀ (fuel : Nat) (value : α) (cmp : α → α → Int), l.comparator = some cmp → n < fuel →
        ∃ s1 l1 n1 r, ll_search_node fuel s value = .ok (s1, r) ∧ s1.list = some l1 ∧
          Invariant s1.heap l1 n1) ∧
    (∀ (fuel : Nat) (cmp : α → α → Int), l.comparator = some cmp → n ≤ fuel →
        ∃ s1 l1 n1, ll_sort_list fuel s = .ok s1 ∧ s1.list = some l1 ∧
          Invariant s1.heap l1 n1) ∧
    (∀ (fuel : Nat), n < fuel →
        ∃ s1 l1 n1, ll_flush_list fuel s = .ok s1 ∧ s1.list = some l1 ∧
          Invariant s1.heap l1 n1) ∧
    (∀ (ndebug : Bool) (fuel : Nat) (f : α → String), l.print_val = some f → n < fuel →
        ∃ s1 l1 n1 out, ll_print_list ndebug fuel s = .ok (s1, out) ∧ s1.list = some l1 ∧
          Invariant s1.heap l1 n1) := by
  obtain ⟨cs, hlen, hR⟩ := IsList_of_Invariant hI
  subst hlen
  have hM : Models s cs := (Models_some hl).2 ⟨hR, hlock⟩
  have hcmpl : ∀ cmp, l.comparator = some cmp →
      ∀ l', s.list = some l' → l'.comparator = some cmp := by
    intro cmp hc l' hl'
    rw [hl] at hl'
    cases hl'
    exact hc
  refine ⟨?_, ?_, ?_, ?_, ?_, ?_, ?_, ?_⟩
  · intro mallocOk mutexOk pv cmp l0 hc h0
    have hc1 : l0 = ⟨none, none, cmp, pv, false⟩ := by
      cases mallocOk <;> cases mutexOk <;> simp [ll_create] at hc
      exact hc.symm
    subst hc1
    have hR0 : IsList h0 (⟨none, none, cmp, pv, false⟩ : ll_t α) ([] : List (Nat × α)) :=
      ⟨rfl, rfl⟩
    exact Invariant_of_IsList hR0
  · intro pv cmp
    exact ⟨_, rfl⟩
  · intro m value hfresh
    obtain ⟨s1, l1, cs1, he, hl1, hR1⟩ := add_end_invariant hl hlock hR m value hfresh
    exact ⟨s1, l1, _, he, hl1, Invariant_of_IsList hR1⟩
  · intro fuel value cmp hc hf
    by_cases hno : ∀ c ∈ cs, ¬ cmp c.2 value = 0
    · exact ⟨s, l, _, delete_absent value hM (hcmpl cmp hc) hno hf, hl, hI⟩
    · obtain ⟨pre, c, post, he, hp, hn⟩ :=
        first_match_split (fun c : Nat × α => cmp c.2 value = 0) cs hno
      subst he
      have hpre : pre.length < fuel := by
        rw [List.length_append] at hf
        omega
      obtain ⟨s1, h1, hM1, _, hlist, _⟩ :=
        delete_found (a := c.1) (x := c.2) hM (hcmpl cmp hc) hn hp hpre
      obtain ⟨l1, hl1, _⟩ := hlist l hl
      rw [Models_some hl1] at hM1
      exact ⟨s1, l1, _, h1, hl1, Invariant_of_IsList hM1.1⟩
  · intro fuel value cmp hc hf
    exact ⟨s, l, _, _, search_spec value hM (hcmpl cmp hc) hf, hl, hI⟩
  · intro fuel cmp hc hf
    obtain ⟨s1, cs1, he, hM1, _, _, hlist, _⟩ := sort_models hM (hcmpl cmp hc) hf
    have hl1 : s1.list = some l := hlist.trans hl
    rw [Models_some hl1] at hM1
    exact ⟨s1, l, _, he, hl1, Invariant_of_IsList hM1.1⟩
  · intro fuel hf
    obtain ⟨s1, he, hM1, _, _, hlist, _⟩ := flush_spec hM hf
    obtain ⟨l1, hl1, _⟩ := hlist l hl
    rw [Models_some hl1] at hM1
    exact ⟨s1, l1, _, he, hl1, Invariant_of_IsList hM1.1⟩
  · intro ndebug fuel f hp hf
    have hpv : ∀ l', s.list = some l' → l'.print_val = some f := by
      intro l' hl'
      rw [hl] at hl'
      cases hl'
      exact hp
    obtain ⟨out, he⟩ := print_spec ndebug hM hpv hf
    exact ⟨s, l, _, out, he, hl, hI⟩

/-- Instance of amended C9: the list 5, 3, 9, which has three elements. -/
theorem invariant_preserved_witness :
    Invariant demo_state.heap demo_list 3 ∧
    (∀ (m : Option Nat) (value : Int), (∀ a, m = some a → demo_state.heap a = none) →
        ∃ s1 l1 n1, ll_add_end m demo_state value = .ok s1 ∧ s1.list = some l1 ∧
          Invariant s1.heap l1 n1) :=
  ⟨Invariant_of_IsList demo_isList,
    (invariant_preserved demo_state demo_list 3 rfl rfl
      (Invariant_of_IsList demo_isList)).2.2.1⟩

/-- C10: append the values `xs` to a list fresh from `ll_create`, each node at a fresh
address, with no hook or a hook that accepts them all, and with a comparator that
answers 0 on every pair (v, v). Then, with enough loop budget, `ll_search_node` for each
appended value `v` returns a non-`NULL` node, that node is live, and its value `x`
satisfies `cmp x v = 0`. -/
theorem search_finds_appended (h0 : Heap α) (cb : Option (α → Int))
    (pv : Option (α → String)) (cmp : α → α → Int) (xs : List (Nat × α)) (fuel : Nat)
    (hnd : (xs.map Prod.fst).Nodup) (hfree : ∀ x ∈ xs, h0 x.1 = none)
    (hacc : ∀ f, cb = some f → ∀ x ∈ xs, f x.2 = 0) (hrefl : ∀ v, cmp v v = 0)
    (hf : xs.length < fuel) :
    ∃ l0 s1, ll_create true true pv (some cmp) = .ok (some l0) ∧
      add_end_seq ⟨h0, some l0, cb⟩ xs = .ok s1 ∧
      ∀ v ∈ xs.map Prod.snd, ∃ a nd, ll_search_node fuel s1 v = .ok (s1, some a) ∧
        s1.heap a = some nd ∧ cmp nd.val v = 0 := by
  obtain ⟨s1, l1, he, hl1, hR1, hlock1, hc1, _⟩ :=
    add_end_seq_spec xs ⟨h0, some ⟨none, none, some cmp, pv, false⟩, cb⟩
      ⟨none, none, some cmp, pv, false⟩ [] rfl rfl ⟨rfl, rfl⟩ hnd hfree
      (fun x hx => validate_accepts (fun f hf => hacc f hf x hx))
  rw [List.nil_append] at hR1
  refine ⟨_, s1, rfl, he, ?_⟩
  intro v hv
  have hM1 : Models s1 xs := (Models_some hl1).2 ⟨hR1, hlock1⟩
  have hcmp1 : ∀ l, s1.list = some l → l.comparator = some cmp := by
    intro l hl
    rw [hl1] at hl
    cases hl
    exact hc1
  have hs := search_spec v hM1 hcmp1 hf
  cases hr : (xs.find? (fun c => decide (cmp c.2 v = 0))).map Prod.fst with
  | none =>
    exfalso
    rw [find_none_iff] at hr
    obtain ⟨c, hc, hcv⟩ := List.mem_map.1 hv
    have := hr c hc
    rw [hcv] at this
    simp [hrefl v] at this
  | some a =>
    obtain ⟨pre, x, post, hxs, hp, _⟩ := find_some_split _ xs a hr
    have hmem : (a, x) ∈ xs := by rw [hxs]; simp
    obtain ⟨nx, hlive⟩ := Seg_live hR1.1 (a, x) hmem
    rw [hr] at hs
    exact ⟨a, _, hs, hlive, by simpa using hp⟩

/-- Instance of C10: appending 5, 3, 9 at the addresses 10, 11, 12 of an empty heap. -/
theorem search_finds_appended_witness :
    ∃ l0 s1, ll_create true true none (some int_compare) = .ok (some l0) ∧
      add_end_seq ⟨fun _ => none, some l0, none⟩ demo_cells = .ok s1 ∧
      ∀ v ∈ demo_cells.map Prod.snd, ∃ a nd, ll_search_node 4 s1 v = .ok (s1, some a) ∧
        s1.heap a = some nd ∧ int_compare nd.val v = 0 :=
  search_finds_appended (fun _ => none) none none int_compare demo_cells 4 (by decide)
    (fun _ _ => rfl) (fun f hf => by cases hf)
    (fun v => by unfold int_compare; simp) (by decide)

/-- C11: round trip. Create a list, append `a` at the fresh address `p`, append `b` at
the fresh address `q`, with no hook or a hook accepting both, and a comparator with
`cmp a a = 0`, `cmp b b = 0` and `cmp b a ≠ 0`; then delete `a`. With enough loop budget
every step returns, `ll_search_node` for `a` answers `NULL`, `ll_search_node` for `b`
answers the node `q`, which holds `b` and is both head and tail of the list. -/
theorem round_trip (h0 : Heap α) (cb : Option (α → Int)) (pv : Option (α → String))
    (cmp : α → α → Int) (a b : α) (p q fuel : Nat) (hpq : p ≠ q) (hp : h0 p = none)
    (hq : h0 q = none) (hacc : ∀ f, cb = some f → f a = 0 ∧ f b = 0)
    (haa : cmp a a = 0) (hbb : cmp b b = 0) (hba : cmp b a ≠ 0) (hf : 1 < fuel) :
    ∃ l0 s1 s2 s3 l3, ll_create true true pv (some cmp) = .ok (some l0) ∧
      ll_add_end (some p) ⟨h0, some l0, cb⟩ a = .ok s1 ∧
      ll_add_end (some q) s1 b = .ok s2 ∧
      ll_delete fuel s2 a = .ok s3 ∧
      ll_search_node fuel s3 a = .ok (s3, none) ∧
      ll_search_node fuel s3 b = .ok (s3, some q) ∧
      s3.heap q = some ⟨b, none⟩ ∧
      s3.list = some l3 ∧ l3.head = some q ∧ l3.tail = some q := by
  obtain ⟨s1, l1, he1, hl1, hR1, hlock1, hc1, _, hcb1, hfr1⟩ :=
    add_end_spec (s := ⟨h0, some ⟨none, none, some cmp, pv, false⟩, cb⟩)
      (l := ⟨none, none, some cmp, pv, false⟩) (a := p) rfl rfl
      (show IsList h0 _ ([] : List (Nat × α)) from ⟨rfl, rfl⟩) hp
      (validate_accepts (fun f hf => (hacc f hf).1))
  rw [List.nil_append] at hR1
  have hq1 : s1.heap q = none := hfr1 q (Ne.symm hpq) hq
  obtain ⟨s2, l2, he2, hl2, hR2, hlock2, hc2, _, hcb2, _⟩ :=
    add_end_spec hl1 hlock1 hR1 hq1
      (validate_accepts (fun f hf =>
        (hacc f ((show s1.callback_validate = cb from hcb1).symm.trans hf)).2))
  have hM2 : Models s2 ([] ++ (p, a) :: [(q, b)]) := (Models_some hl2).2 ⟨hR2, hlock2⟩
  have hcmp2 : ∀ l, s2.list = some l → l.comparator = some cmp := by
    intro l hl
    rw [hl2] at hl
    cases hl
    rw [hc2, hc1]
  obtain ⟨s3, he3, hM3, _, hlist3, _⟩ :=
    delete_found hM2 hcmp2 (by simp) haa (Nat.lt_of_lt_of_le Nat.zero_lt_one (Nat.le_of_lt hf))
  obtain ⟨l3, hl3, hc3, _⟩ := hlist3 l2 hl2
  have hcmp3 : ∀ l, s3.list = some l → l.comparator = some cmp := by
    intro l hl
    rw [hl3] at hl
    cases hl
    rw [hc3]
    exact hcmp2 l2 hl2
  rw [List.nil_append] at hM3
  have hsa := search_spec a hM3 hcmp3 (by simpa using hf)
  have hsb := search_spec b hM3 hcmp3 (by simpa using hf)
  have hR3 := ((Models_some hl3).1 hM3).1
  obtain ⟨hseg3, htail3⟩ := hR3
  obtain ⟨hhead3, nx, hnode, hnx⟩ := hseg3
  simp only [Seg_nil] at hnx
  subst hnx
  refine ⟨_, s1, s2, s3, l3, rfl, he1, he2, he3, ?_, ?_, hnode, hl3, hhead3, ?_⟩
  · rw [hsa]
    simp [hba]
  · rw [hsb]
    simp [hbb]
  · rw [htail3]
    rfl

/-- Instance of C11: appending 5 then 3 at the addresses 10 and 11, deleting 5. -/
theorem round_trip_witness :
    ∃ l0 s1 s2 s3 l3, ll_create true true none (some int_compare) = .ok (some l0) ∧
      ll_add_end (some 10) ⟨fun _ => none, some l0, none⟩ 5 = .ok s1 ∧
      ll_add_end (some 11) s1 3 = .ok s2 ∧
      ll_delete 2 s2 5 = .ok s3 ∧
      ll_search_node 2 s3 5 = .ok (s3, none) ∧
      ll_search_node 2 s3 3 = .ok (s3, some 11) ∧
      s3.heap 11 = some ⟨3, none⟩ ∧
      s3.list = some l3 ∧ l3.head = some 11 ∧ l3.tail = some 11 :=
  round_trip (fun _ => none) none none int_compare 5 3 10 11 2 (by decide) rfl rfl
    (fun f hf => by cases hf) (by decide) (by decide) (by decide) (by decide)

/-! ## `ll_print_list`: what is emitted -/

theorem print_loop_events (ndebug : Bool) (f : α → String) (h : Heap α)
    (cs : List (Nat × α)) :
    ∀ (fuel : Nat) (p : Option Nat), Seg h p cs none → cs.length < fuel →
      ll_print_loop ndebug (some f) fuel h p = .ok (print_events ndebug (cs.map Prod.snd)) := by
  induction cs with
  | nil =>
    intro fuel p hs hf
    simp only [Seg_nil] at hs
    subst hs
    cases fuel with
    | zero => simp at hf
    | succ fuel => rfl
  | cons c cs ih =>
    intro fuel p hs hf
    obtain ⟨hp, nx, hc, hr⟩ := hs
    subst hp
    cases fuel with
    | zero => simp at hf
    | succ fuel =>
      simp only [List.length_cons, Nat.add_lt_add_iff_right] at hf
      simp only [ll_print_loop, hc, ih fuel nx hr hf, List.map_cons, print_events]
      cases cs with
      | nil =>
        have hnx : nx = none := by simpa using hr
        subst hnx
        simp
      | cons d cs =>
        have hnx : nx ≠ none := by rw [head_of_Seg hr]; simp
        simp [hnx]

theorem print_events_spec {s : State α} {cs : List (Nat × α)} {f : α → String}
    (ndebug : Bool) {fuel : Nat} (hM : Models s cs) (hne : cs ≠ [])
    (hpv : ∀ l, s.list = some l → l.print_val = some f) (hf : cs.length < fuel) :
    ll_print_list ndebug fuel s
      = .ok (s, print_events ndebug (cs.map Prod.snd) ++ DEBUG_PRINTF ndebug "\n") := by
  obtain ⟨l, hl, hR, hlock, hh⟩ := Models_nonempty hM hne
  have hv : ¬ validate_head (some l) = -1 := by rw [validate_head_some hh]; decide
  have ho := print_loop_events ndebug f s.heap cs fuel l.head hR.1 hf
  rw [← hpv l hl] at ho
  simp only [ll_print_list, hl, hv, ↓reduceIte, LL_LOCK, hlock, Bool.false_eq_true,
    ho, unlock_lock hlock, State.list_eta hl]

theorem print_guard {s : State α} (ndebug : Bool) (fuel : Nat)
    (hv : validate_head s.list = -1) : ll_print_list ndebug fuel s = .ok (s, []) := by
  simp [ll_print_list, hv]

theorem calls_append (xs ys : List (Event α)) : calls (xs ++ ys) = calls xs ++ calls ys := by
  induction xs with
  | nil => rfl
  | cons e xs ih => cases e <;> simp [calls, ih]

theorem calls_debug (ndebug : Bool) (t : String) :
    calls (DEBUG_PRINTF ndebug t : List (Event α)) = [] := by
  cases ndebug <;> rfl

theorem calls_print_events (ndebug : Bool) (vs : List α) :
    calls (print_events ndebug vs) = vs := by
  induction vs with
  | nil => rfl
  | cons v vs ih =>
    simp only [print_events, calls, calls_append, ih]
    split <;> simp [calls, calls_debug]

theorem print_events_release (vs : List α) :
    print_events true vs = vs.map Event.call := by
  induction vs with
  | nil => rfl
  | cons v vs ih => simp [print_events, DEBUG_PRINTF, ih]

theorem texts_map_call {β : Type} (g : β → α) (xs : List β) :
    texts (xs.map (fun x => Event.call (g x))) = [] := by
  induction xs with
  | nil => rfl
  | cons x xs ih => simpa [texts] using ih

theorem guard_of_null_or_empty {s : State α}
    (h0 : s.list = none ∨ ∃ l, s.list = some l ∧ l.head = none) :
    validate_head s.list = -1 := by
  rcases h0 with h0 | ⟨l, h0, hh⟩
  · rw [h0]; rfl
  · rw [h0]; exact validate_head_empty hh

theorem print_calls {s : State α} {cs : List (Nat × α)} {f : α → String}
    (ndebug : Bool) {fuel : Nat} (hM : Models s cs)
    (hpv : ∀ l, s.list = some l → l.print_val = some f) (hf : cs.length < fuel) :
    ∃ out, ll_print_list ndebug fuel s = .ok (s, out) ∧ calls out = cs.map Prod.snd ∧
      (ndebug = true → out = cs.map (fun c => Event.call c.2)) := by
  by_cases hv : validate_head s.list = -1
  · have := Models_guard hM hv
    subst this
    exact ⟨[], print_guard ndebug fuel hv, rfl, fun _ => rfl⟩
  · have hne : cs ≠ [] := by
      intro h
      subst h
      exact hv (validate_head_of_empty hM)
    refine ⟨_, print_events_spec ndebug hM hne hpv hf, ?_, ?_⟩
    · rw [calls_append, calls_print_events, calls_debug, List.append_nil]
    · intro hnd
      subst hnd
      rw [print_events_release]
      simp [DEBUG_PRINTF]

/-! ## The claims, continued -/

/-- C14: on a handle that is `NULL` or owns the chain `cs`, with a print callback set
and enough loop budget, `ll_print_list` returns the state unchanged, and the values on
which it invoked the callback are exactly the values of the chain in head-to-tail order,
one call per element, in a debug build and in a release build alike; on a `NULL` handle
or an empty list it emits nothing at all. -/
theorem print_each_once (s : State α) (cs : List (Nat × α)) (f : α → String)
    (ndebug : Bool) (fuel : Nat) (hM : Models s cs)
    (hpv : ∀ l, s.list = some l → l.print_val = some f) (hf : cs.length < fuel) :
    ∃ out, ll_print_list ndebug fuel s = .ok (s, out) ∧ calls out = cs.map Prod.snd ∧
      ((s.list = none ∨ ∃ l, s.list = some l ∧ l.head = none) → out = []) := by
  obtain ⟨out, he, hc, _⟩ := print_calls ndebug hM hpv hf
  refine ⟨out, he, hc, ?_⟩
  intro h0
  have h2 := print_guard ndebug fuel (guard_of_null_or_empty h0)
  rw [he] at h2
  cases h2
  rfl

/-- Instance of C14: printing the list 5, 3, 9 in a debug build. -/
theorem print_each_once_witness :
    ∃ out, ll_print_list false 4 demo_state = .ok (demo_state, out) ∧
      calls out = demo_cells.map Prod.snd ∧
      ((demo_state.list = none ∨ ∃ l, demo_state.list = some l ∧ l.head = none) →
        out = []) :=
  print_each_once demo_state demo_cells (fun v => toString v) false 4 demo_models
    (fun l hl => by cases hl; rfl) (by decide)

/-- C15, as stated, fails: in a release build (`NDEBUG` defined) `ll_print_list` on the
list 5, 3, 9 still invokes the print callback, on 5, 3 and 9. -/
theorem release_print_still_calls :
    ∃ out, ll_print_list true 4 demo_state = .ok (demo_state, out) ∧ calls out = [5, 3, 9] := by
  obtain ⟨out, he, hc, _⟩ :=
    print_calls (f := fun v => toString v) true demo_models
      (fun l hl => by cases hl; rfl) (show demo_cells.length < 4 by decide)
  exact ⟨out, he, hc⟩

theorem null_or_empty_of_guard {s : State α} (hv : validate_head s.list = -1) :
    s.list = none ∨ ∃ l, s.list = some l ∧ l.head = none := by
  cases hl : s.list with
  | none => exact Or.inl rfl
  | some l =>
    refine Or.inr ⟨l, rfl, ?_⟩
    rw [hl] at hv
    by_contra hh
    rw [validate_head_some hh] at hv
    cases hv

/-- C15, amended: in a release build (`NDEBUG` defined) `ll_print_list` writes no text of
its own, neither the arrows nor the final newline, and returns the state unchanged, but
it is not a no-op: what it emits is exactly one call of the print callback per element,
in head-to-tail order; it invokes no callback exactly on a `NULL` handle or an empty
list. -/
theorem release_print_only_calls (s : State α) (cs : List (Nat × α)) (f : α → String)
    (fuel : Nat) (hM : Models s cs)
    (hpv : ∀ l, s.list = some l → l.print_val = some f) (hf : cs.length < fuel) :
    ∃ out, ll_print_list true fuel s = .ok (s, out) ∧
      out = cs.map (fun c => Event.call c.2) ∧ texts out = [] ∧
      calls out = cs.map Prod.snd ∧
      (calls out = [] ↔ (s.list = none ∨ ∃ l, s.list = some l ∧ l.head = none)) := by
  obtain ⟨out, he, hc, hr⟩ := print_calls true hM hpv hf
  refine ⟨out, he, hr rfl, ?_, hc, ?_⟩
  · rw [hr rfl]
    exact texts_map_call _ _
  · rw [hc]
    constructor
    · intro h0
      have hnil : cs = [] := List.map_eq_nil_iff.1 h0
      subst hnil
      exact null_or_empty_of_guard (validate_head_of_empty hM)
    · intro h0
      rw [Models_guard hM (guard_of_null_or_empty h0)]
      rfl

/-- Instance of amended C15: printing the list 5, 3, 9 in a release build. -/
theorem release_print_only_calls_witness :
    ∃ out, ll_print_list true 4 demo_state = .ok (demo_state, out) ∧
      out = demo_cells.map (fun c => Event.call c.2) ∧ texts out = [] ∧
      calls out = demo_cells.map Prod.snd ∧
      (calls out = [] ↔
        (demo_state.list = none ∨ ∃ l, demo_state.list = some l ∧ l.head = none)) :=
  release_print_only_calls demo_state demo_cells (fun v => toString v) 4 demo_models
    (fun l hl => by cases hl; rfl) (by decide)

/-! ## `ll_destroy_list` -/

theorem destroy_busy (t : State α) (l : ll_t α) (fuel : Nat) (hl : t.list = some l)
    (hh : l.head = none) (hlock : l.lock = true) : ll_destroy_list fuel t = .ok t := by
  have hv : validate_head (some l) = -1 := validate_head_empty hh
  simp [ll_destroy_list, ll_flush_list, hv, hl, hlock]

/-- C12, evaluated on a `NULL` handle: `ll_add_end` and `ll_destroy_list` have no guard
and dereference the `NULL` handle, whatever the other arguments are, whereas the five
entry points that call `validate_head` return at once, leaving the state as it was. -/
theorem null_handle_entry_points (h : Heap α) (cb : Option (α → Int)) (m : Option Nat)
    (value : α) (ndebug : Bool) (fuel : Nat) :
    ll_add_end m ⟨h, none, cb⟩ value = .error .nullDeref ∧
    ll_destroy_list fuel ⟨h, none, cb⟩ = .error .nullDeref ∧
    ll_delete fuel ⟨h, none, cb⟩ value = .ok ⟨h, none, cb⟩ ∧
    ll_search_node fuel ⟨h, none, cb⟩ value = .ok (⟨h, none, cb⟩, none) ∧
    ll_sort_list fuel ⟨h, none, cb⟩ = .ok ⟨h, none, cb⟩ ∧
    ll_flush_list fuel ⟨h, none, cb⟩ = .ok ⟨h, none, cb⟩ ∧
    ll_print_list ndebug fuel ⟨h, none, cb⟩ = .ok (⟨h, none, cb⟩, []) :=
  ⟨rfl, rfl, rfl, rfl, rfl, rfl, rfl⟩

theorem sort_inner_congr (cmp1 cmp2 : α → α → Int)
    (hag : ∀ a b, cmp1 a b = 1 ↔ cmp2 a b = 1) (ptr2 : Option Nat) (fuel : Nat) :
    ∀ (h : Heap α) (p : Option Nat) (sw : Bool),
      ll_sort_inner (some cmp1) ptr2 fuel h p sw = ll_sort_inner (some cmp2) ptr2 fuel h p sw := by
  induction fuel with
  | zero => intro h p sw; rfl
  | succ fuel ih =>
    intro h p sw
    cases p with
    | none => rfl
    | some p =>
      simp only [ll_sort_inner]
      cases h p with
      | none => rfl
      | some n1 =>
        simp only
        by_cases hnx : n1.next = ptr2
        · simp only [hnx, ↓reduceIte]
        · simp only [hnx, ↓reduceIte]
          cases hq : n1.next with
          | none => rfl
          | some q =>
            simp only
            cases h q with
            | none => rfl
            | some n2 =>
              simp only
              by_cases hc : cmp1 n1.val n2.val = 1
              · have hc2 := (hag _ _).1 hc
                simp only [hc, hc2, ↓reduceIte]
                cases swap h (some p) (some q) with
                | error e => rfl
                | ok h1 =>
                  simp only
                  cases h1 p with
                  | none => rfl
                  | some n1a => exact ih _ _ _
              · have hc2 : ¬ cmp2 n1.val n2.val = 1 := fun h2 => hc ((hag _ _).2 h2)
                simp only [hc, hc2, ↓reduceIte]
                exact ih _ _ _

theorem sort_outer_congr (cmp1 cmp2 : α → α → Int)
    (hag : ∀ a b, cmp1 a b = 1 ↔ cmp2 a b = 1) (fuel : Nat) (l1 l2 : ll_t α)
    (h1 : l1.comparator = some cmp1) (h2 : l2.comparator = some cmp2)
    (hh : l1.head = l2.head) (passes : Nat) :
    ∀ (h : Heap α) (ptr2 : Option Nat),
      ll_sort_outer fuel l1 passes h ptr2 = ll_sort_outer fuel l2 passes h ptr2 := by
  induction passes with
  | zero => intro h ptr2; rfl
  | succ passes ih =>
    intro h ptr2
    simp only [ll_sort_outer, h1, h2, hh, sort_inner_congr cmp1 cmp2 hag ptr2 fuel]
    cases ll_sort_inner (some cmp2) ptr2 fuel h l2.head false with
    | error e => rfl
    | ok r =>
      obtain ⟨hr, ptr1, sw⟩ := r
      simp only
      cases sw with
      | false => rfl
      | true => simpa using ih hr ptr1

theorem sort_list_congr (cmp1 cmp2 : α → α → Int)
    (hag : ∀ a b, cmp1 a b = 1 ↔ cmp2 a b = 1) (fuel : Nat) (t : State α) :
    (ll_sort_list fuel (with_comparator t (some cmp1))).map (fun r => with_comparator r none)
      = (ll_sort_list fuel (with_comparator t (some cmp2))).map
          (fun r => with_comparator r none) := by
  obtain ⟨heap, list, cb⟩ := t
  cases list with
  | none => rfl
  | some l =>
    by_cases hh : l.head = none
    · simp [ll_sort_list, with_comparator, validate_head, hh, Except.map]
    · by_cases hlk : l.lock = true
      · simp [ll_sort_list, with_comparator, validate_head, hh, LL_LOCK, hlk, Except.map]
      · have hout := sort_outer_congr cmp1 cmp2 hag fuel
          ({ l with comparator := some cmp1, lock := true } : ll_t α)
          ({ l with comparator := some cmp2, lock := true } : ll_t α) rfl rfl rfl fuel heap none
        simp only [ll_sort_list, with_comparator, validate_head, hh, LL_LOCK, hlk,
          Option.map_some', ↓reduceIte, Bool.false_eq_true]
        simp only [Int.reduceNeg, reduceCtorEq, ↓reduceIte, hout]
        cases ll_sort_outer fuel ({ l with comparator := some cmp2, lock := true } : ll_t α)
          fuel heap none <;> simp [Except.map, LL_UNLOCK]

theorem search_loop_congr (cmp1 cmp2 : α → α → Int)
    (hag : ∀ a b, cmp1 a b = 0 ↔ cmp2 a b = 0) (value : α) (fuel : Nat) :
    ∀ (h : Heap α) (p : Option Nat),
      ll_search_loop (some cmp1) value fuel h p = ll_search_loop (some cmp2) value fuel h p := by
  induction fuel with
  | zero => intro h p; rfl
  | succ fuel ih =>
    intro h p
    cases p with
    | none => rfl
    | some p =>
      simp only [ll_search_loop]
      cases h p with
      | none => rfl
      | some nd =>
        simp only
        by_cases hc : cmp1 nd.val value = 0
        · have hc2 := (hag _ _).1 hc
          simp only [hc, hc2, ↓reduceIte]
        · have hc2 : ¬ cmp2 nd.val value = 0 := fun h2 => hc ((hag _ _).2 h2)
          simp only [hc, hc2, ↓reduceIte]
          exact ih _ _

theorem search_node_congr (cmp1 cmp2 : α → α → Int)
    (hag : ∀ a b, cmp1 a b = 0 ↔ cmp2 a b = 0) (fuel : Nat) (t : State α) (value : α) :
    (ll_search_node fuel (with_comparator t (some cmp1)) value).map
        (fun r => (with_comparator r.1 none, r.2))
      = (ll_search_node fuel (with_comparator t (some cmp2)) value).map
          (fun r => (with_comparator r.1 none, r.2)) := by
  obtain ⟨heap, list, cb⟩ := t
  cases list with
  | none => rfl
  | some l =>
    by_cases hh : l.head = none
    · simp [ll_search_node, with_comparator, validate_head, hh, Except.map]
    · by_cases hlk : l.lock = true
      · simp [ll_search_node, with_comparator, validate_head, hh, LL_LOCK, hlk, Except.map]
      · have hloop := search_loop_congr cmp1 cmp2 hag value fuel heap l.head
        simp only [ll_search_node, with_comparator, validate_head, hh, LL_LOCK, hlk,
          Option.map_some', ↓reduceIte, Bool.false_eq_true]
        simp only [Int.reduceNeg, reduceCtorEq, ↓reduceIte, hloop]
        cases ll_search_loop (some cmp2) value fuel heap l.head <;>
          simp [Except.map, LL_UNLOCK]

theorem delete_loop_congr (cmp1 cmp2 : α → α → Int)
    (hag : ∀ a b, cmp1 a b = 0 ↔ cmp2 a b = 0) (value : α) (l : ll_t α) (fuel : Nat) :
    ∀ (h : Heap α) (t prev : Option Nat),
      (ll_delete_loop value fuel h { l with comparator := some cmp1 } t prev).map
          (fun r => (r.1, ({ r.2.1 with comparator := none } : ll_t α), r.2.2))
        = (ll_delete_loop value fuel h { l with comparator := some cmp2 } t prev).map
            (fun r => (r.1, ({ r.2.1 with comparator := none } : ll_t α), r.2.2)) := by
  induction fuel with
  | zero => intro h t prev; rfl
  | succ fuel ih =>
    intro h t prev
    cases t with
    | none => rfl
    | some t =>
      simp only [ll_delete_loop]
      cases h t with
      | none => rfl
      | some nd =>
        simp only
        by_cases hc : cmp1 nd.val value = 0
        · have hc2 := (hag _ _).1 hc
          simp only [hc, hc2, ↓reduceIte]
          cases prev with
          | none =>
            simp only [Except.map]
            split_ifs <;> rfl
          | some p =>
            simp only
            cases h p with
            | none => rfl
            | some pn =>
              simp only [Except.map]
              split_ifs <;> rfl
        · have hc2 : ¬ cmp2 nd.val value = 0 := fun h2 => hc ((hag _ _).2 h2)
          simp only [hc, hc2, ↓reduceIte]
          exact ih _ _ _

theorem delete_congr (cmp1 cmp2 : α → α → Int)
    (hag : ∀ a b, cmp1 a b = 0 ↔ cmp2 a b = 0) (fuel : Nat) (t : State α) (value : α) :
    (ll_delete fuel (with_comparator t (some cmp1)) value).map
        (fun r => with_comparator r none)
      = (ll_delete fuel (with_comparator t (some cmp2)) value).map
          (fun r => with_comparator r none) := by
  obtain ⟨heap, list, cb⟩ := t
  cases list with
  | none => rfl
  | some l =>
    by_cases hh : l.head = none
    · simp [ll_delete, with_comparator, validate_head, hh, Except.map]
    · by_cases hlk : l.lock = true
      · simp [ll_delete, with_comparator, validate_head, hh, LL_LOCK, hlk, Except.map]
      · have hloop := delete_loop_congr cmp1 cmp2 hag value
          ({ l with lock := true } : ll_t α) fuel heap l.head none
        simp only [ll_delete, with_comparator, validate_head, hh, LL_LOCK, hlk,
          Option.map_some', ↓reduceIte, Bool.false_eq_true]
        simp only [Int.reduceNeg, reduceCtorEq, ↓reduceIte]
        revert hloop
        cases ll_delete_loop value fuel heap
            ({ l with comparator := some cmp1, lock := true } : ll_t α) l.head none <;>
          cases ll_delete_loop value fuel heap
            ({ l with comparator := some cmp2, lock := true } : ll_t α) l.head none <;>
          simp [Except.map, LL_UNLOCK]
        intro h1 h2 h3 h4 _ h6
        simp [h1, h2, h3, h4, h6]

theorem never_one_noswap (cmp : α → α → Int) (hnever : ∀ a b, cmp a b ≠ 1) (r : List α) :
    ∀ x, swappedFrom cmp x r = false := by
  induction r with
  | nil => intro x; rfl
  | cons y r ih =>
    intro x
    simp only [swappedFrom, hnever x y, ↓reduceIte]
    exact ih y

/-- C13: the comparator is only ever tested for the answers 1 (by the sort) and 0 (by
search and delete). Two runs of `ll_sort_list` from the same state under comparators
that answer 1 on the same pairs end the same way, with the same heap and header; a
comparator that never answers 1 makes `ll_sort_list` return a well-formed list
unchanged; two runs of `ll_search_node`, or of `ll_delete`, under comparators that
answer 0 on the same pairs end the same way, with the same heap, header and result. -/
theorem comparator_only_zero_one (s : State α) (cs : List (Nat × α)) (cmp : α → α → Int)
    (fuel : Nat) (hM : Models s cs)
    (hcmp : ∀ l, s.list = some l → l.comparator = some cmp) (hf : cs.length ≤ fuel) :
    (∀ (cmp1 cmp2 : α → α → Int), (∀ a b, cmp1 a b = 1 ↔ cmp2 a b = 1) →
      ∀ (t : State α) (n : Nat),
        (ll_sort_list n (with_comparator t (some cmp1))).map
            (fun r => with_comparator r none)
          = (ll_sort_list n (with_comparator t (some cmp2))).map
              (fun r => with_comparator r none)) ∧
    ((∀ a b, cmp a b ≠ 1) → ll_sort_list fuel s = .ok s) ∧
    (∀ (cmp1 cmp2 : α → α → Int), (∀ a b, cmp1 a b = 0 ↔ cmp2 a b = 0) →
      ∀ (t : State α) (n : Nat) (value : α),
        (ll_search_node n (with_comparator t (some cmp1)) value).map
            (fun r => (with_comparator r.1 none, r.2))
          = (ll_search_node n (with_comparator t (some cmp2)) value).map
              (fun r => (with_comparator r.1 none, r.2)) ∧
        (ll_delete n (with_comparator t (some cmp1)) value).map
            (fun r => with_comparator r none)
          = (ll_delete n (with_comparator t (some cmp2)) value).map
              (fun r => with_comparator r none)) := by
  refine ⟨?_, ?_, ?_⟩
  · intro cmp1 cmp2 hag t n
    exact sort_list_congr cmp1 cmp2 hag n t
  · intro hnever
    obtain ⟨s1, cs1, he, _, _, _, _, _, hsame, hnil⟩ := sort_models hM hcmp hf
    cases hct : cs.map Prod.snd with
    | nil =>
      rw [hnil (List.map_eq_nil_iff.1 hct)] at he
      exact he
    | cons v vs =>
      rw [hsame v vs hct (never_one_noswap cmp hnever vs v)] at he
      exact he
  · intro cmp1 cmp2 hag t n value
    exact ⟨search_node_congr cmp1 cmp2 hag n t value, delete_congr cmp1 cmp2 hag n t value⟩

/-- Instance of C13: the list 5, 3, 9 with the comparator `less_or_zero`, which never
answers 1. -/
theorem comparator_only_zero_one_witness :
    ll_sort_list 3 demo_state_never_one = .ok demo_state_never_one :=
  (comparator_only_zero_one demo_state_never_one demo_cells less_or_zero 3
    ⟨demo_isList_never_one, rfl⟩ (fun l hl => by cases hl; rfl) (by decide)).2.1
    (fun a b => by unfold less_or_zero; split <;> decide)

/-! ## The loop budget: a larger budget never changes a result -/

theorem sort_inner_mono (comparator : Option (α → α → Int)) (ptr2 : Option Nat) (n : Nat) :
    ∀ (h : Heap α) (p : Option Nat) (sw : Bool),
      ll_sort_inner comparator ptr2 n h p sw = .error .fuel ∨
      ll_sort_inner comparator ptr2 n h p sw = ll_sort_inner comparator ptr2 (n + 1) h p sw := by
  induction n with
  | zero => intro h p sw; exact Or.inl rfl
  | succ n ih =>
    intro h p sw
    cases p with
    | none => exact Or.inr rfl
    | some p =>
      rw [ll_sort_inner, ll_sort_inner]
      cases h p with
      | none => exact Or.inr rfl
      | some n1 =>
        simp only
        by_cases hnx : n1.next = ptr2
        · simp only [hnx, ↓reduceIte]
          exact Or.inr trivial
        · simp only [hnx, ↓reduceIte]
          cases comparator with
          | none => exact Or.inr rfl
          | some cmp =>
            simp only
            cases n1.next with
            | none => exact Or.inr rfl
            | some q =>
              simp only
              cases h q with
              | none => exact Or.inr rfl
              | some n2 =>
                simp only
                by_cases hc : cmp n1.val n2.val = 1
                · simp only [hc, ↓reduceIte]
                  cases swap h (some p) (some q) with
                  | error e => exact Or.inr rfl
                  | ok h1 =>
                    simp only
                    cases h1 p with
                    | none => exact Or.inr rfl
                    | some n1a => exact ih _ _ _
                · simp only [hc, ↓reduceIte]
                  exact ih _ _ _

theorem sort_inner_mono_le (comparator : Option (α → α → Int)) (ptr2 : Option Nat)
    (h : Heap α) (p : Option Nat) (sw : Bool) (n : Nat) :
    ∀ d, ll_sort_inner comparator ptr2 n h p sw = .error .fuel ∨
      ll_sort_inner comparator ptr2 n h p sw
        = ll_sort_inner comparator ptr2 (n + d) h p sw := by
  intro d
  induction d with
  | zero => exact Or.inr rfl
  | succ d ih =>
    rcases ih with ih | ih
    · exact Or.inl ih
    · rcases sort_inner_mono comparator ptr2 (n + d) h p sw with hm | hm
      · exact Or.inl (ih.trans hm)
      · exact Or.inr (ih.trans hm)

theorem sort_outer_mono_fuel (l : ll_t α) (f : Nat) (passes : Nat) :
    ∀ (h : Heap α) (ptr2 : Option Nat),
      ll_sort_outer f l passes h ptr2 = .error .fuel ∨
      ll_sort_outer f l passes h ptr2 = ll_sort_outer (f + 1) l passes h ptr2 := by
  induction passes with
  | zero => intro h ptr2; exact Or.inl rfl
  | succ passes ih =>
    intro h ptr2
    rw [ll_sort_outer, ll_sort_outer]
    rcases sort_inner_mono l.comparator ptr2 f h l.head false with hm | hm
    · rw [hm]
      exact Or.inl rfl
    · rw [← hm]
      cases ll_sort_inner l.comparator ptr2 f h l.head false with
      | error e => exact Or.inr rfl
      | ok r =>
        obtain ⟨h1, ptr1, sw⟩ := r
        simp only
        cases sw with
        | false => exact Or.inr rfl
        | true => simpa using ih h1 ptr1

theorem sort_outer_mono_passes (l : ll_t α) (f : Nat) (passes : Nat) :
    ∀ (h : Heap α) (ptr2 : Option Nat),
      ll_sort_outer f l passes h ptr2 = .error .fuel ∨
      ll_sort_outer f l passes h ptr2 = ll_sort_outer f l (passes + 1) h ptr2 := by
  induction passes with
  | zero => intro h ptr2; exact Or.inl rfl
  | succ passes ih =>
    intro h ptr2
    rw [ll_sort_outer, ll_sort_outer]
    cases ll_sort_inner l.comparator ptr2 f h l.head false with
    | error e => exact Or.inr rfl
    | ok r =>
      obtain ⟨h1, ptr1, sw⟩ := r
      simp only
      cases sw with
      | false => exact Or.inr rfl
      | true => simpa using ih h1 ptr1

theorem sort_list_mono (s : State α) (n : Nat) :
    ll_sort_list n s = .error .fuel ∨ ll_sort_list n s = ll_sort_list (n + 1) s := by
  unfold ll_sort_list
  split
  · exact Or.inr rfl
  · cases s.list with
    | none => exact Or.inr rfl
    | some l0 =>
      simp only
      cases LL_LOCK l0 with
      | error e => exact Or.inr rfl
      | ok l =>
        simp only
        rcases sort_outer_mono_fuel l n n s.heap none with h1 | h1
        · rw [h1]; exact Or.inl rfl
        · rcases sort_outer_mono_passes l (n + 1) n s.heap none with h2 | h2
          · rw [h1, h2]; exact Or.inl rfl
          · rw [h1, h2]; exact Or.inr rfl

theorem sort_list_mono_le (s : State α) (n : Nat) :
    ∀ d, ll_sort_list n s = .error .fuel ∨ ll_sort_list n s = ll_sort_list (n + d) s := by
  intro d
  induction d with
  | zero => exact Or.inr rfl
  | succ d ih =>
    rcases ih with ih | ih
    · exact Or.inl ih
    · rcases sort_list_mono s (n + d) with hm | hm
      · exact Or.inl (ih.trans hm)
      · exact Or.inr (ih.trans hm)

theorem not_BadAccess_ok {β : Type} (x : β) : ¬ BadAccess (Except.ok x : Except Fault β) := by
  rintro (h | h) <;> cases h

theorem not_BadAccess_fuel {β : Type} : ¬ BadAccess (Except.error Fault.fuel : Except Fault β) := by
  rintro (h | h) <;> cases h

/-! ## One pass of the sort on a chain split at the boundary -/

theorem sort_pass_cells (cmp : α → α → Int) (l : ll_t α) (hcmp : l.comparator = some cmp)
    (fuel : Nat) (h : Heap α) (pre post : List (Nat × α)) (hne : pre ≠ [])
    (hs : Seg h l.head (pre ++ post) none) (hf : pre.length ≤ fuel) :
    ∃ h1 pre1 sw, ll_sort_inner l.comparator (post.head?.map Prod.fst) fuel h l.head false
        = .ok (h1, pre.getLast?.map Prod.fst, sw) ∧
      Seg h1 l.head (pre1 ++ post) none ∧ pre1.map Prod.fst = pre.map Prod.fst ∧
      (sw = true → 2 ≤ pre.length) ∧ (sw = false → h1 = h) := by
  cases pre with
  | nil => exact absurd rfl hne
  | cons c pre =>
    have hz := zip_map_fst_snd (c :: pre ++ post)
    simp only [List.map_cons, List.map_append, List.cons_append] at hz
    have hs0 : Seg h l.head
        ((c.1 :: pre.map Prod.fst ++ post.map Prod.fst).zip
          (c.2 :: pre.map Prod.snd ++ post.map Prod.snd)) none := by
      simp only [List.cons_append]
      rw [hz]
      exact hs
    obtain ⟨h1, he, hseg1, hsame⟩ :=
      sort_pass_spec cmp l hcmp fuel h c.1 (pre.map Prod.fst) c.2 (pre.map Prod.snd)
        (post.map Prod.fst) (post.map Prod.snd) (by simp) (by simp) hs0
        (by simpa using hf)
    have hlenB : (c.1 :: pre.map Prod.fst).length
        = (bubbleFrom cmp c.2 (pre.map Prod.snd)).length := by
      rw [bubbleFrom_length]; simp
    refine ⟨h1, (c.1 :: pre.map Prod.fst).zip (bubbleFrom cmp c.2 (pre.map Prod.snd)),
      swappedFrom cmp c.2 (pre.map Prod.snd), ?_, ?_, ?_, ?_, hsame⟩
    · rw [List.head?_map] at he
      rw [he, ← List.map_cons, List.getLast?_map]
    · rw [List.zip_append hlenB, zip_map_fst_snd post] at hseg1
      exact hseg1
    · rw [List.map_fst_zip _ _ (Nat.le_of_eq hlenB)]
      rfl
    · intro hsw
      cases pre with
      | nil => simp [swappedFrom] at hsw
      | cons d pre => simp

/-- C18: on a non-empty list owning the chain `cs`, for any comparator whatever, with a
loop budget of at least the number `n` of elements: `ll_sort_list` returns; the
`do ... while` loop returns within `n` passes; a pass over the nodes before the boundary
ends with `ptr1` on the last of them, which is the next boundary, so the part still to
scan loses one node per pass; and a pass that ends with `swapped` unset ends the loop. -/
theorem sort_terminates (s : State α) (l : ll_t α) (cs : List (Nat × α))
    (cmp : α → α → Int) (fuel : Nat) (hl : s.list = some l) (hlock : l.lock = false)
    (hR : IsList s.heap l cs) (hne : cs ≠ []) (hcmp : l.comparator = some cmp)
    (hf : cs.length ≤ fuel) :
    (∃ s1, ll_sort_list fuel s = .ok s1) ∧
    (∀ l1, LL_LOCK l = .ok l1 →
      ∃ h1, ll_sort_outer fuel l1 cs.length s.heap none = .ok h1) ∧
    (∀ (h : Heap α) (pre post : List (Nat × α)), pre ≠ [] →
      Seg h l.head (pre ++ post) none → pre.length ≤ fuel →
      ∃ h1 pre1 sw,
        ll_sort_inner l.comparator (post.head?.map Prod.fst) fuel h l.head false
          = .ok (h1, pre.getLast?.map Prod.fst, sw) ∧
        Seg h1 l.head (pre1 ++ post) none ∧ pre1.map Prod.fst = pre.map Prod.fst) ∧
    (∀ (passes : Nat) (h h1 : Heap α) (ptr1 ptr2 : Option Nat),
      ll_sort_inner l.comparator ptr2 fuel h l.head false = .ok (h1, ptr1, false) →
      ll_sort_outer fuel l (passes + 1) h ptr2 = .ok h1) := by
  refine ⟨?_, ?_, ?_, ?_⟩
  · obtain ⟨s1, _, he, _⟩ :=
      sort_models ((Models_some hl).2 ⟨hR, hlock⟩)
        (fun l' hl' => by rw [hl] at hl'; cases hl'; exact hcmp) hf
    exact ⟨s1, he⟩
  · intro l1 hl1
    simp only [LL_LOCK, hlock, Bool.false_eq_true, ↓reduceIte, Except.ok.injEq] at hl1
    subst hl1
    cases cs with
    | nil => exact absurd rfl hne
    | cons c cs =>
      have hseg0 : Seg s.heap ({ l with lock := true } : ll_t α).head
          ((c.1 :: cs.map Prod.fst ++ []).zip (c.2 :: cs.map Prod.snd ++ [])) none := by
        have := zip_map_fst_snd (c :: cs)
        simp only [List.map_cons] at this
        simp only [List.append_nil]
        rw [this]
        exact hR.1
      obtain ⟨h1, he, _⟩ :=
        sort_outer_spec cmp ({ l with lock := true } : ll_t α) hcmp fuel cs.length
          (cs.length + 1) s.heap c.1 (cs.map Prod.fst) c.2 (cs.map Prod.snd) [] []
          (by simp) (by simp) rfl hseg0 (Nat.lt_succ_self _) hf
      exact ⟨h1, he⟩
  · intro h pre post hpre hs hfp
    obtain ⟨h1, pre1, sw, he, hseg, hfst, _⟩ :=
      sort_pass_cells cmp l hcmp fuel h pre post hpre hs hfp
    exact ⟨h1, pre1, sw, he, hseg, hfst⟩
  · intro passes h h1 ptr1 ptr2 he
    simp only [ll_sort_outer, he, Bool.false_eq_true, ↓reduceIte]

/-- Instance of C18: the list 5, 3, 9 with a comparator that always answers 1. -/
theorem sort_terminates_witness :
    ∃ s1, ll_sort_list 3 demo_state_always_one = .ok s1 :=
  (sort_terminates demo_state_always_one { demo_list with comparator := some (fun _ _ => 1) }
    demo_cells (fun _ _ => 1) 3 rfl rfl demo_isList_always_one (by decide) rfl
    (by decide)).1

theorem last_cell_live {h : Heap α} {p : Option Nat} {pre post : List (Nat × α)}
    (hne : pre ≠ []) (hs : Seg h p (pre ++ post) none) :
    ∃ a nd, pre.getLast?.map Prod.fst = some a ∧ h a = some nd := by
  rcases List.eq_nil_or_concat pre with h0 | ⟨init, c, h0⟩
  · exact absurd h0 hne
  · subst h0
    rw [List.concat_eq_append] at hs ⊢
    obtain ⟨nx, hc⟩ := Seg_live hs c (by simp)
    exact ⟨c.1, _, by rw [List.getLast?_concat]; rfl, hc⟩

/-- C19: on a list owning the chain `cs`, empty or not, for any comparator whatever,
`ll_sort_list` never dereferences a `NULL` or dead pointer, however far its loops are
run. The same holds for each run of the inner loop on a chain `pre ++ post` whose
boundary `ptr2` is the first node of `post` (or `NULL`) and whose part `pre` before the
boundary is not empty: run to its end it stops with `ptr1` on the last node of `pre`,
an existing node, and it can only have swapped if `pre` has at least two nodes, so the
next boundary again lies strictly after the head. -/
theorem sort_stays_in_chain (s : State α) (l : ll_t α) (cs : List (Nat × α))
    (cmp : α → α → Int) (hl : s.list = some l) (hlock : l.lock = false)
    (hR : IsList s.heap l cs) (hcmp : l.comparator = some cmp) :
    (∀ n, ¬ BadAccess (ll_sort_list n s)) ∧
    (∀ (h : Heap α) (pre post : List (Nat × α)), pre ≠ [] →
      Seg h l.head (pre ++ post) none →
      (∀ n, ¬ BadAccess
        (ll_sort_inner l.comparator (post.head?.map Prod.fst) n h l.head false)) ∧
      (∀ n, pre.length ≤ n → ∃ h1 a nd sw,
        ll_sort_inner l.comparator (post.head?.map Prod.fst) n h l.head false
          = .ok (h1, some a, sw) ∧
        pre.getLast?.map Prod.fst = some a ∧ h1 a = some nd ∧
        (sw = true → 2 ≤ pre.length))) := by
  have hpass : ∀ (h : Heap α) (pre post : List (Nat × α)), pre ≠ [] →
      Seg h l.head (pre ++ post) none → ∀ n, pre.length ≤ n → ∃ h1 a nd sw,
        ll_sort_inner l.comparator (post.head?.map Prod.fst) n h l.head false
          = .ok (h1, some a, sw) ∧
        pre.getLast?.map Prod.fst = some a ∧ h1 a = some nd ∧
        (sw = true → 2 ≤ pre.length) := by
    intro h pre post hpre hs n hn
    obtain ⟨h1, pre1, sw, he, hseg, hfst, hsw, _⟩ :=
      sort_pass_cells cmp l hcmp n h pre post hpre hs hn
    have hpre1 : pre1 ≠ [] := by
      intro h0
      rw [h0] at hfst
      exact hpre (List.map_eq_nil_iff.1 hfst.symm)
    obtain ⟨a, nd, ha, hlive⟩ := last_cell_live hpre1 hseg
    have ha' : pre.getLast?.map Prod.fst = some a := by
      rw [← List.getLast?_map, ← hfst, List.getLast?_map]
      exact ha
    rw [ha'] at he
    exact ⟨h1, a, nd, sw, he, ha', hlive, hsw⟩
  refine ⟨?_, ?_⟩
  · intro n
    obtain ⟨s1, _, he, _⟩ :=
      sort_models ((Models_some hl).2 ⟨hR, hlock⟩)
        (fun l' hl' => by rw [hl] at hl'; cases hl'; exact hcmp)
        (show cs.length ≤ n + cs.length from Nat.le_add_left _ _)
    rcases sort_list_mono_le s n cs.length with hm | hm
    · rw [hm]; exact not_BadAccess_fuel
    · rw [hm, he]; exact not_BadAccess_ok s1
  · intro h pre post hpre hs
    refine ⟨?_, hpass h pre post hpre hs⟩
    intro n
    obtain ⟨h1, a, nd, sw, he, _⟩ :=
      hpass h pre post hpre hs (n + pre.length) (Nat.le_add_left _ _)
    rcases sort_inner_mono_le l.comparator (post.head?.map Prod.fst) h l.head false n
        pre.length with hm | hm
    · rw [hm]; exact not_BadAccess_fuel
    · rw [hm, he]; exact not_BadAccess_ok _

/-- Instance of C19: the list 5, 3, 9 with a comparator that always answers 1, run with
a budget that is too small and with one that suffices. -/
theorem sort_stays_in_chain_witness :
    ¬ BadAccess (ll_sort_list 2 demo_state_always_one) ∧
    ¬ BadAccess (ll_sort_list 3 demo_state_always_one) :=
  ⟨(sort_stays_in_chain demo_state_always_one
      { demo_list with comparator := some (fun _ _ => 1) } demo_cells (fun _ _ => 1) rfl rfl
      demo_isList_always_one rfl).1 2,
    (sort_stays_in_chain demo_state_always_one
      { demo_list with comparator := some (fun _ _ => 1) } demo_cells (fun _ _ => 1) rfl rfl
      demo_isList_always_one rfl).1 3⟩

/-! ## The lock on return -/

theorem add_end_unlocks {s s1 : State α} {l : ll_t α} {m : Option Nat} {value : α}
    (hl : s.list = some l) (hlock : l.lock = false)
    (he : ll_add_end m s value = .ok s1) : ∃ l1, s1.list = some l1 ∧ l1.lock = false := by
  simp only [ll_add_end, hl, LL_LOCK, hlock, Bool.false_eq_true, ↓reduceIte] at he
  split at he
  · cases he; exact ⟨_, rfl, rfl⟩
  · split at he
    · cases he; exact ⟨_, rfl, rfl⟩
    · split at he
      · cases he; exact ⟨_, rfl, rfl⟩
      · split at he
        · cases he
        · cases he; exact ⟨_, rfl, rfl⟩

theorem delete_unlocks {s s1 : State α} {l : ll_t α} {fuel : Nat} {value : α}
    (hl : s.list = some l) (hlock : l.lock = false)
    (he : ll_delete fuel s value = .ok s1) : ∃ l1, s1.list = some l1 ∧ l1.lock = false := by
  simp only [ll_delete, hl, LL_LOCK, hlock, Bool.false_eq_true, ↓reduceIte] at he
  split at he
  · cases he; exact ⟨l, hl, hlock⟩
  · split at he
    · cases he
    · cases he; exact ⟨_, rfl, rfl⟩

theorem search_unlocks {s s1 : State α} {l : ll_t α} {fuel : Nat} {value : α}
    {r : Option Nat} (hl : s.list = some l) (hlock : l.lock = false)
    (he : ll_search_node fuel s value = .ok (s1, r)) :
    ∃ l1, s1.list = some l1 ∧ l1.lock = false := by
  simp only [ll_search_node, hl, LL_LOCK, hlock, Bool.false_eq_true, ↓reduceIte] at he
  split at he
  · cases he; exact ⟨l, hl, hlock⟩
  · split at he
    · cases he
    · cases he; exact ⟨_, rfl, rfl⟩

theorem sort_unlocks {s s1 : State α} {l : ll_t α} {fuel : Nat}
    (hl : s.list = some l) (hlock : l.lock = false)
    (he : ll_sort_list fuel s = .ok s1) : ∃ l1, s1.list = some l1 ∧ l1.lock = false := by
  simp only [ll_sort_list, hl, LL_LOCK, hlock, Bool.false_eq_true, ↓reduceIte] at he
  split at he
  · cases he; exact ⟨l, hl, hlock⟩
  · split at he
    · cases he
    · cases he; exact ⟨_, rfl, rfl⟩

theorem flush_unlocks {s s1 : State α} {l : ll_t α} {fuel : Nat}
    (hl : s.list = some l) (hlock : l.lock = false)
    (he : ll_flush_list fuel s = .ok s1) : ∃ l1, s1.list = some l1 ∧ l1.lock = false := by
  simp only [ll_flush_list, hl, LL_LOCK, hlock, Bool.false_eq_true, ↓reduceIte] at he
  split at he
  · cases he; exact ⟨l, hl, hlock⟩
  · split at he
    · cases he
    · cases he; exact ⟨_, rfl, rfl⟩

theorem print_unlocks {s s1 : State α} {l : ll_t α} {ndebug : Bool} {fuel : Nat}
    {out : List (Event α)} (hl : s.list = some l) (hlock : l.lock = false)
    (he : ll_print_list ndebug fuel s = .ok (s1, out)) :
    ∃ l1, s1.list = some l1 ∧ l1.lock = false := by
  simp only [ll_print_list, hl, LL_LOCK, hlock, Bool.false_eq_true, ↓reduceIte] at he
  split at he
  · cases he; exact ⟨l, hl, hlock⟩
  · split at he
    · cases he
    · cases he; exact ⟨_, rfl, rfl⟩

theorem delete_returns {s : State α} {cs : List (Nat × α)} {cmp : α → α → Int}
    (value : α) {fuel : Nat} (hM : Models s cs)
    (hcmp : ∀ l, s.list = some l → l.comparator = some cmp) (hf : cs.length < fuel) :
    ∃ s1, ll_delete fuel s value = .ok s1 := by
  by_cases hno : ∀ c ∈ cs, ¬ cmp c.2 value = 0
  · exact ⟨s, delete_absent value hM hcmp hno hf⟩
  · obtain ⟨pre, c, post, he, hp, hn⟩ :=
      first_match_split (fun c : Nat × α => cmp c.2 value = 0) cs hno
    subst he
    have hpre : pre.length < fuel := by
      rw [List.length_append] at hf
      omega
    obtain ⟨s1, h1, _⟩ := delete_found (a := c.1) (x := c.2) hM hcmp hn hp hpre
    exact ⟨s1, h1⟩

theorem guard_early_return (t : State α) (hv : validate_head t.list = -1) (fuel : Nat)
    (value : α) (ndebug : Bool) :
    ll_delete fuel t value = .ok t ∧ ll_search_node fuel t value = .ok (t, none) ∧
    ll_sort_list fuel t = .ok t ∧ ll_flush_list fuel t = .ok t ∧
    ll_print_list ndebug fuel t = .ok (t, []) := by
  simp [ll_delete, ll_search_node, ll_sort_list, ll_flush_list, ll_print_list, hv]

/-- C20: lock discipline, the mutex being a held/free flag. From a list whose lock is
free, every return of `ll_add_end`, `ll_delete`, `ll_search_node`, `ll_sort_list`,
`ll_flush_list` and `ll_print_list` leaves the lock free, whatever path was taken; on a
well-formed list each of them does return, given enough loop budget, on every path (hook
rejecting or not, `malloc` failing or not, a match found or not); and the early return
on a `NULL` handle or an empty list gives back the state untouched even when the lock is
held, so it never acquires the lock. -/
theorem lock_released (s : State α) (l : ll_t α) (cs : List (Nat × α))
    (hl : s.list = some l) (hlock : l.lock = false) (hR : IsList s.heap l cs) :
    (∀ m value s1, ll_add_end m s value = .ok s1 →
      ∃ l1, s1.list = some l1 ∧ l1.lock = false) ∧
    (∀ fuel value s1, ll_delete fuel s value = .ok s1 →
      ∃ l1, s1.list = some l1 ∧ l1.lock = false) ∧
    (∀ fuel value s1 r, ll_search_node fuel s value = .ok (s1, r) →
      ∃ l1, s1.list = some l1 ∧ l1.lock = false) ∧
    (∀ fuel s1, ll_sort_list fuel s = .ok s1 →
      ∃ l1, s1.list = some l1 ∧ l1.lock = false) ∧
    (∀ fuel s1, ll_flush_list fuel s = .ok s1 →
      ∃ l1, s1.list = some l1 ∧ l1.lock = false) ∧
    (∀ ndebug fuel s1 out, ll_print_list ndebug fuel s = .ok (s1, out) →
      ∃ l1, s1.list = some l1 ∧ l1.lock = false) ∧
    (∀ (m : Option Nat) (value : α), (∀ a, m = some a → s.heap a = none) →
      ∃ s1, ll_add_end m s value = .ok s1) ∧
    (∀ (fuel : Nat) (value : α) (cmp : α → α → Int), l.comparator = some cmp →
      cs.length < fuel →
      (∃ s1, ll_delete fuel s value = .ok s1) ∧
      (∃ s1 r, ll_search_node fuel s value = .ok (s1, r)) ∧
      (∃ s1, ll_sort_list fuel s = .ok s1)) ∧
    (∀ (fuel : Nat), cs.length < fuel → ∃ s1, ll_flush_list fuel s = .ok s1) ∧
    (∀ (ndebug : Bool) (fuel : Nat) (f : α → String), l.print_val = some f →
      cs.length < fuel → ∃ s1 out, ll_print_list ndebug fuel s = .ok (s1, out)) ∧
    (∀ (t : State α), validate_head t.list = -1 →
      ∀ (fuel : Nat) (value : α) (ndebug : Bool),
        ll_delete fuel t value = .ok t ∧ ll_search_node fuel t value = .ok (t, none) ∧
        ll_sort_list fuel t = .ok t ∧ ll_flush_list fuel t = .ok t ∧
        ll_print_list ndebug fuel t = .ok (t, [])) := by
  have hM : Models s cs := (Models_some hl).2 ⟨hR, hlock⟩
  have hcmpl : ∀ cmp, l.comparator = some cmp →
      ∀ l', s.list = some l' → l'.comparator = some cmp := by
    intro cmp hc l' hl'
    rw [hl] at hl'
    cases hl'
    exact hc
  refine ⟨?_, ?_, ?_, ?_, ?_, ?_, ?_, ?_, ?_, ?_, ?_⟩
  · intro m value s1 he
    exact add_end_unlocks hl hlock he
  · intro fuel value s1 he
    exact delete_unlocks hl hlock he
  · intro fuel value s1 r he
    exact search_unlocks hl hlock he
  · intro fuel s1 he
    exact sort_unlocks hl hlock he
  · intro fuel s1 he
    exact flush_unlocks hl hlock he
  · intro ndebug fuel s1 out he
    exact print_unlocks hl hlock he
  · intro m value hfresh
    obtain ⟨s1, _, _, he, _⟩ := add_end_invariant hl hlock hR m value hfresh
    exact ⟨s1, he⟩
  · intro fuel value cmp hc hf
    refine ⟨delete_returns value hM (hcmpl cmp hc) hf,
      ⟨s, _, search_spec value hM (hcmpl cmp hc) hf⟩, ?_⟩
    obtain ⟨s1, _, he, _⟩ := sort_models hM (hcmpl cmp hc) (Nat.le_of_lt hf)
    exact ⟨s1, he⟩
  · intro fuel hf
    obtain ⟨s1, he, _⟩ := flush_spec hM hf
    exact ⟨s1, he⟩
  · intro ndebug fuel f hp hf
    have hpv : ∀ l', s.list = some l' → l'.print_val = some f := by
      intro l' hl'
      rw [hl] at hl'
      cases hl'
      exact hp
    obtain ⟨out, he⟩ := print_spec ndebug hM hpv hf
    exact ⟨s, out, he⟩
  · intro t hv fuel value ndebug
    exact guard_early_return t hv fuel value ndebug

/-- Instance of C20: the list 5, 3, 9; an append that fails for lack of memory returns
with the lock free. -/
theorem lock_released_witness :
    ∃ s1 l1, ll_add_end none demo_state 7 = .ok s1 ∧ s1.list = some l1 ∧ l1.lock = false := by
  have h := lock_released demo_state demo_list demo_cells rfl rfl demo_isList
  obtain ⟨s1, he⟩ := h.2.2.2.2.2.2.1 none 7 (fun a ha => by cases ha)
  obtain ⟨l1, hl1, hk⟩ := h.1 none 7 s1 he
  exact ⟨s1, l1, he, hl1, hk⟩

end LL
